import Mathlib

/-!
Verification of the version-constraint engine, result cache and manifest
rewriters of the `bump` dependency checker.

The embedding models Go strings as Lean `String` values (operating on their
`List Char` contents; Go compares strings byte-wise in UTF-8, which agrees
with code-point order used here), Go `time.Time` instants as whole seconds
since the Unix epoch in UTC, and Go errors as `Option String` / `Except
String` carrying the `fmt.Errorf` message.  Functions are named after the
Go functions they model where Lean allows it.
-/

namespace Bump

set_option maxRecDepth 400000

/-! ## Character classes and small Go string helpers -/

/-- Character class of the Go regex `[\^~>=<]` used by `CleanVersion` and
`GetVersionPrefix` in internal/shared/version.go. -/
def isVersionOpChar (c : Char) : Bool :=
  c = '^' || c = '~' || c = '>' || c = '=' || c = '<'

/-- Go `strings.Contains s c` for a one-character substring `c`. -/
def goContains (s : String) (c : Char) : Bool :=
  s.data.contains c

/-- Go `strings.Split` for a one-character separator: the list of chunks
between occurrences of `sep`; always non-empty. -/
def goSplit (sep : Char) : List Char → List (List Char)
  | [] => [[]]
  | c :: rest =>
    if c = sep then [] :: goSplit sep rest
    else
      match goSplit sep rest with
      | [] => [[c]]
      | g :: gs => (c :: g) :: gs

/-- Whitespace class of the Go regex `\s`, namely `[\t\n\f\r ]`. -/
def isRegexSpace (c : Char) : Bool :=
  c = ' ' || c = '\t' || c = '\n' || c = '\x0c' || c = '\r'

/-- The portion of Go `unicode.IsSpace` relevant to ASCII/Latin-1 text
(tab, LF, VT, FF, CR, space, NEL, NBSP), used by `strings.Fields` and
`strings.TrimSpace`. -/
def isGoSpace (c : Char) : Bool :=
  c = ' ' || c = '\t' || c = '\n' || c = '\x0b' || c = '\x0c' || c = '\r' ||
  c.val = 0x85 || c.val = 0xA0

/-- Helper for `goFields`: accumulate the current word (reversed in `acc`)
while walking the character list. -/
def goFieldsAux : List Char → List Char → List (List Char)
  | acc, [] => if acc = [] then [] else [acc.reverse]
  | acc, c :: rest =>
    if isGoSpace c then
      if acc = [] then goFieldsAux [] rest
      else acc.reverse :: goFieldsAux [] rest
    else goFieldsAux (c :: acc) rest

/-- Go `strings.Fields`: the whitespace-separated words of a string. -/
def goFields (s : String) : List String :=
  (goFieldsAux [] s.data).map fun l => ⟨l⟩

/-- Go `strconv.Atoi` on a 64-bit platform: an optional sign followed by
decimal digits, erring on empty input, stray characters and overflow past
the `int64` range. -/
def goAtoi (s : List Char) : Option Int :=
  match s with
  | [] => none
  | c :: rest =>
    let neg : Bool := c = '-'
    let digits : List Char := if c = '-' || c = '+' then rest else s
    if digits = [] then none
    else if digits.all Char.isDigit then
      let n : Nat := digits.foldl (fun a d => a * 10 + (d.toNat - 48)) 0
      let v : Int := if neg then -(n : Int) else (n : Int)
      if v < -(2 ^ 63) ∨ 2 ^ 63 - 1 < v then none else some v
    else none

/-! ## internal/shared/version.go -/

/-- The `SemanticVersion` struct of internal/shared/types.go: the parsed
`major.minor.patch` triple (Go `int` fields; pre-release text is discarded
by the parser and has no field). -/
structure SemanticVersion where
  major : Int
  minor : Int
  patch : Int
deriving Repr, DecidableEq

/-- Go `CleanVersion`: remove the leading run of constraint-operator
characters (regex `^[\^~>=<]+` replaced by the empty string). -/
def CleanVersion (version : String) : String :=
  ⟨version.data.dropWhile isVersionOpChar⟩

/-- Go `GetVersionPrefix`: the leading run of constraint-operator
characters (regex `^([\^~>=<]+)`), or `""` when there is none. -/
def GetVersionPrefix (version : String) : String :=
  ⟨version.data.takeWhile isVersionOpChar⟩

/-- Go `ParseSemanticVersion`: drop everything from the first `-`
(pre-release) and then from the first `+` (build metadata), split the rest
on `.`, and require at least three integer components. -/
def ParseSemanticVersion (version : String) : Option SemanticVersion :=
  let v1 := (goSplit '-' version.data).headD []
  let v2 := (goSplit '+' v1).headD []
  let parts := goSplit '.' v2
  if parts.length < 3 then none
  else
    match goAtoi (parts.getD 0 []), goAtoi (parts.getD 1 []), goAtoi (parts.getD 2 []) with
    | some major, some minor, some patch => some ⟨major, minor, patch⟩
    | _, _, _ => none

/-- Go `compareSemanticVersions`: lexicographic comparison of the
`(major, minor, patch)` triples, returning -1, 0 or 1. -/
def compareSemanticVersions (a b : SemanticVersion) : Int :=
  if a.major ≠ b.major then (if a.major < b.major then -1 else 1)
  else if a.minor ≠ b.minor then (if a.minor < b.minor then -1 else 1)
  else if a.patch ≠ b.patch then (if a.patch < b.patch then -1 else 1)
  else 0

/-- Go `isSingleComparatorSatisfied`: one clause of a compound constraint,
an operator from `>=, >, <=, <, =` (or none, meaning exact equality)
applied to `latestVer`. -/
def isSingleComparatorSatisfied (comparator : String) (latestVer : SemanticVersion) : Bool :=
  let pfx := GetVersionPrefix comparator
  if pfx = "" then
    match ParseSemanticVersion comparator with
    | none => false
    | some exactVer => compareSemanticVersions latestVer exactVer = 0
  else
    match ParseSemanticVersion (CleanVersion comparator) with
    | none => false
    | some constraintVer =>
      let comparison := compareSemanticVersions latestVer constraintVer
      if pfx = ">=" then comparison ≥ 0
      else if pfx = ">" then comparison > 0
      else if pfx = "<=" then comparison ≤ 0
      else if pfx = "<" then comparison < 0
      else if pfx = "=" then comparison = 0
      else false

/-- Go `isCompoundConstraintCompatible`: pre-release candidates are
rejected; otherwise every space-separated clause must hold. -/
def isCompoundConstraintCompatible (constraint latestVersion : String) : Bool :=
  if goContains latestVersion '-' then false
  else
    match ParseSemanticVersion latestVersion with
    | none => false
    | some latestVer =>
      (goFields constraint).all fun part => isSingleComparatorSatisfied part latestVer

/-- Go `IsSemverCompatible` (internal/shared/version.go): does
`latestVersion` satisfy the constraint `originalVersion`?  Compound
(space-separated) constraints take the clause path; otherwise the
constraint's operator decides: `^` caret rules with leading-zero special
cases, `~` same major+minor, the four comparison operators, no operator
meaning a hardcoded version (never compatible). -/
def IsSemverCompatible (originalVersion latestVersion : String) : Bool :=
  if goContains originalVersion ' ' then
    isCompoundConstraintCompatible originalVersion latestVersion
  else
    let pfx := GetVersionPrefix originalVersion
    if pfx = "" then false
    else if goContains latestVersion '-' then false
    else
      match ParseSemanticVersion (CleanVersion originalVersion),
            ParseSemanticVersion latestVersion with
      | some currentVer, some latestVer =>
        if pfx = "^" then
          if currentVer.major = 0 then
            if currentVer.minor = 0 then
              latestVer.major = 0 && latestVer.minor = 0 && latestVer.patch ≥ currentVer.patch
            else
              latestVer.major = 0 && latestVer.minor ≥ currentVer.minor
          else
            latestVer.major = currentVer.major &&
              (latestVer.minor > currentVer.minor ||
                (latestVer.minor = currentVer.minor && latestVer.patch ≥ currentVer.patch))
        else if pfx = "~" then
          latestVer.major = currentVer.major && latestVer.minor = currentVer.minor &&
            latestVer.patch ≥ currentVer.patch
        else if pfx = ">=" then compareSemanticVersions latestVer currentVer ≥ 0
        else if pfx = ">" then compareSemanticVersions latestVer currentVer > 0
        else if pfx = "<=" then compareSemanticVersions latestVer currentVer ≤ 0
        else if pfx = "<" then compareSemanticVersions latestVer currentVer < 0
        else false
      | _, _ => false

/-- Go string `<`: lexicographic byte order (UTF-8 byte order coincides
with code-point order). -/
def goListLess : List Char → List Char → Bool
  | [], [] => false
  | [], _ :: _ => true
  | _ :: _, [] => false
  | a :: xs, b :: ys =>
    if a.val < b.val then true
    else if b.val < a.val then false
    else goListLess xs ys

/-- Go string `<` on `String`. -/
def goStringLess (a b : String) : Bool :=
  goListLess a.data b.data

/-- The `less` closure passed to `sort.Slice` in `FindBothLatestVersions`:
semantic comparison when both sides parse, falling back to plain string
comparison otherwise. -/
def versionLess (a b : String) : Bool :=
  match ParseSemanticVersion a, ParseSemanticVersion b with
  | some verI, some verJ => compareSemanticVersions verI verJ < 0
  | _, _ => goStringLess a b

/-- Insert into a list sorted by `versionLess` (ascending). -/
def insertVersion (x : String) : List String → List String
  | [] => [x]
  | y :: ys => if versionLess x y then x :: y :: ys else y :: insertVersion x ys

/-- Model of `sort.Slice(stableVersions, less)`: insertion sort by
`versionLess` ascending. -/
def sortVersions : List String → List String
  | [] => []
  | x :: xs => insertVersion x (sortVersions xs)

/-- The pre-release filter loop of `FindBothLatestVersions`: keep the
candidates that do not contain `-`. -/
def stableFilter (versions : List String) : List String :=
  versions.filter fun v => !(goContains v '-')

/-- Go `FindBothLatestVersions`: returns
`(absoluteLatest, constraintLatest, error)`.  The error component models
the returned `error` with its message. -/
def FindBothLatestVersions (versions : List String) (constraint : String) :
    String × String × Option String :=
  if versions = [] then ("", "", some "no versions provided")
  else
    let stableVersions := stableFilter versions
    if stableVersions = [] then ("", "", some "no stable versions available")
    else
      let sorted := sortVersions stableVersions
      let absoluteLatest := sorted.getLastD ""
      let constraintLatest :=
        (sorted.reverse.find? fun v => IsSemverCompatible constraint v).getD ""
      if constraintLatest = "" then
        (absoluteLatest, "", some ("no versions satisfy the constraint " ++ constraint))
      else
        (absoluteLatest, constraintLatest, none)

/-! ## Lemmas about the string helpers -/

theorem goSplit_ne_nil (sep : Char) (l : List Char) : goSplit sep l ≠ [] := by
  cases l with
  | nil => simp [goSplit]
  | cons c rest =>
    unfold goSplit
    split
    · simp
    · cases h : goSplit sep rest <;> simp

theorem goSplit_headD (sep : Char) (l : List Char) :
    (goSplit sep l).headD [] = l.takeWhile (fun c => c != sep) := by
  induction l with
  | nil => rfl
  | cons c rest ih =>
    unfold goSplit
    by_cases hc : c = sep
    · subst hc
      simp [List.takeWhile_cons]
    · simp only [if_neg hc]
      cases h : goSplit sep rest with
      | nil => exact absurd h (goSplit_ne_nil sep rest)
      | cons g gs =>
        rw [h] at ih
        simp only [List.headD_cons] at ih
        simp [List.takeWhile_cons, hc, ← ih]

theorem takeWhile_all {p : Char → Bool} {l : List Char} (h : ∀ c ∈ l, p c = true) :
    l.takeWhile p = l := by
  induction l with
  | nil => rfl
  | cons c rest ih =>
    rw [List.takeWhile_cons, if_pos (h c (by simp))]
    rw [ih fun d hd => h d (by simp [hd])]

theorem takeWhile_append_cons {p : Char → Bool} {xs ys : List Char} {y : Char}
    (hxs : ∀ c ∈ xs, p c = true) (hy : p y = false) :
    (xs ++ y :: ys).takeWhile p = xs := by
  induction xs with
  | nil => simp [List.takeWhile_cons, hy]
  | cons a as ih =>
    rw [List.cons_append, List.takeWhile_cons, if_pos (hxs a (by simp))]
    rw [ih fun d hd => hxs d (by simp [hd])]

theorem goContains_eq_false_iff {s : String} {c : Char} :
    goContains s c = false ↔ c ∉ s.data := by
  simp [goContains]

theorem getD_zero_eq_headD {α : Type} (l : List α) (d : α) : l.getD 0 d = l.headD d := by
  cases l <;> rfl

/-! ## Lemmas about `ParseSemanticVersion` -/

theorem parse_append_dash (v r : String) (h : goContains v '-' = false) :
    ParseSemanticVersion (v ++ "-" ++ r) = ParseSemanticVersion v := by
  have hmem := goContains_eq_false_iff.mp h
  have hdata : (v ++ "-" ++ r).data = v.data ++ '-' :: r.data := by
    simp [String.data_append]
  have h1 : (goSplit '-' (v ++ "-" ++ r).data).headD [] = v.data := by
    rw [goSplit_headD, hdata]
    exact takeWhile_append_cons
      (fun c hc => by simp; exact fun hceq => hmem (hceq ▸ hc)) (by simp)
  have h2 : (goSplit '-' v.data).headD [] = v.data := by
    rw [goSplit_headD]
    exact takeWhile_all fun c hc => by simp; exact fun hceq => hmem (hceq ▸ hc)
  unfold ParseSemanticVersion
  rw [h1, h2]

theorem parse_append_plus (v r : String) (hv : goContains v '-' = false)
    (hr : goContains r '-' = false) (hp : goContains v '+' = false) :
    ParseSemanticVersion (v ++ "+" ++ r) = ParseSemanticVersion v := by
  have hmemv := goContains_eq_false_iff.mp hv
  have hmemr := goContains_eq_false_iff.mp hr
  have hmemp := goContains_eq_false_iff.mp hp
  have hdata : (v ++ "+" ++ r).data = v.data ++ '+' :: r.data := by
    simp [String.data_append]
  have h1 : (goSplit '-' (v ++ "+" ++ r).data).headD [] = v.data ++ '+' :: r.data := by
    rw [goSplit_headD, hdata]
    refine takeWhile_all fun c hc => by
      simp
      intro hceq
      subst hceq
      rcases List.mem_append.mp hc with h | h
      · exact hmemv h
      · rcases List.mem_cons.mp h with h | h
        · exact absurd h (by decide)
        · exact hmemr h
  have h2 : (goSplit '-' v.data).headD [] = v.data := by
    rw [goSplit_headD]
    exact takeWhile_all fun c hc => by simp; exact fun hceq => hmemv (hceq ▸ hc)
  have h3 : (goSplit '+' (v.data ++ '+' :: r.data)).headD [] = v.data := by
    rw [goSplit_headD]
    exact takeWhile_append_cons
      (fun c hc => by simp; exact fun hceq => hmemp (hceq ▸ hc)) (by simp)
  have h4 : (goSplit '+' v.data).headD [] = v.data := by
    rw [goSplit_headD]
    exact takeWhile_all fun c hc => by simp; exact fun hceq => hmemp (hceq ▸ hc)
  simp only [ParseSemanticVersion]
  rw [h1, h2, h3, h4]

theorem goAtoi_ne_nil {l : List Char} {n : Int} (h : goAtoi l = some n) : l ≠ [] := by
  intro he
  subst he
  simp [goAtoi] at h

theorem goAtoi_head {c : Char} {rest : List Char} {n : Int}
    (h : goAtoi (c :: rest) = some n) : c = '-' ∨ c = '+' ∨ c.isDigit = true := by
  by_cases hminus : c = '-'
  · exact Or.inl hminus
  by_cases hplus : c = '+'
  · exact Or.inr (Or.inl hplus)
  refine Or.inr (Or.inr ?_)
  simp only [goAtoi, hminus, hplus] at h
  simp only [decide_False, Bool.or_self, if_false, Bool.false_eq_true] at h
  split at h
  · exact absurd h (by simp)
  · split at h
    · rename_i hall
      exact List.forall_mem_cons.mp (List.all_eq_true.mp hall) |>.1
    · exact absurd h (by simp)

theorem takeWhile_head {p : Char → Bool} {l : List Char} {c : Char} {cs : List Char}
    (h : l.takeWhile p = c :: cs) : (∃ tl, l = c :: tl) ∧ p c = true := by
  cases l with
  | nil => simp at h
  | cons a tl =>
    rw [List.takeWhile_cons] at h
    by_cases hp : p a = true
    · rw [if_pos hp] at h
      obtain ⟨h1, _⟩ := List.cons.injEq .. ▸ h
      exact ⟨⟨tl, by rw [← (List.cons_eq_cons.mp h).1]⟩, (List.cons_eq_cons.mp h).1 ▸ hp⟩
    · rw [if_neg hp] at h
      simp at h

/-- Heart of several caret proofs: a dash-free string that parses as a
semantic version starts with a decimal digit. -/
theorem parse_head_digit {v : String} {ver : SemanticVersion}
    (hd : goContains v '-' = false) (hp : ParseSemanticVersion v = some ver) :
    ∃ c cs, v.data = c :: cs ∧ c.isDigit = true := by
  have hmem := goContains_eq_false_iff.mp hd
  have h1 : (goSplit '-' v.data).headD [] = v.data := by
    rw [goSplit_headD]
    exact takeWhile_all fun c hc => by simp; exact fun hceq => hmem (hceq ▸ hc)
  simp only [ParseSemanticVersion, h1, goSplit_headD] at hp
  set w := v.data.takeWhile (fun c => c != '+') with hw
  by_cases hlen : (goSplit '.' w).length < 3
  · rw [if_pos hlen] at hp
    simp at hp
  · rw [if_neg hlen] at hp
    cases hA : goAtoi ((goSplit '.' w).getD 0 []) with
    | none => rw [hA] at hp; simp at hp
    | some a =>
      rw [getD_zero_eq_headD, goSplit_headD] at hA
      cases hTW : w.takeWhile (fun c => c != '.') with
      | nil => rw [hTW] at hA; exact absurd hA (by simp [goAtoi])
      | cons c cs0 =>
        rw [hTW] at hA
        obtain ⟨⟨tl1, hwc⟩, _⟩ := takeWhile_head hTW
        obtain ⟨⟨tl2, hvc⟩, hcplus⟩ := takeWhile_head (hw ▸ hwc)
        rcases goAtoi_head hA with hc | hc | hc
        · exfalso
          exact hmem (hc ▸ hvc ▸ List.mem_cons_self c tl2)
        · simp [hc] at hcplus
        · exact ⟨c, tl2, hvc, hc⟩

theorem op_not_digit {c : Char} (h : isVersionOpChar c = true) : c.isDigit = false := by
  simp only [isVersionOpChar, Bool.or_eq_true, decide_eq_true_eq] at h
  rcases h with (((rfl | rfl) | rfl) | rfl) | rfl <;> decide

/-! ## Lemmas about `sortVersions` and `FindBothLatestVersions` -/

theorem mem_insertVersion {x a : String} {l : List String} :
    x ∈ insertVersion a l ↔ x = a ∨ x ∈ l := by
  induction l with
  | nil => simp [insertVersion]
  | cons y ys ih =>
    unfold insertVersion
    split
    · simp
    · simp only [List.mem_cons, ih]
      tauto

theorem mem_sortVersions {x : String} {l : List String} :
    x ∈ sortVersions l ↔ x ∈ l := by
  induction l with
  | nil => simp [sortVersions]
  | cons y ys ih => simp [sortVersions, mem_insertVersion, ih]

theorem sortVersions_ne_nil {l : List String} (h : l ≠ []) : sortVersions l ≠ [] := by
  cases l with
  | nil => exact absurd rfl h
  | cons y ys =>
    intro hs
    have : y ∈ sortVersions (y :: ys) := mem_sortVersions.mpr (by simp)
    rw [hs] at this
    simp at this

theorem getLastD_mem {l : List String} (h : l ≠ []) (d : String) : l.getLastD d ∈ l := by
  induction l with
  | nil => exact absurd rfl h
  | cons y ys ih =>
    cases ys with
    | nil => simp [List.getLastD]
    | cons z zs =>
      rw [List.getLastD_cons]
      exact List.mem_cons_of_mem y (ih (by simp))

/-- A candidate accepted by `IsSemverCompatible` always parses as a
semantic version (every accepting path parses `latestVersion`). -/
theorem sat_parses {c v : String} (h : IsSemverCompatible c v = true) :
    (ParseSemanticVersion v).isSome = true := by
  cases hpv : ParseSemanticVersion v with
  | some x => simp
  | none =>
    exfalso
    unfold IsSemverCompatible at h
    split at h
    · unfold isCompoundConstraintCompatible at h
      rw [hpv] at h
      simp at h
    · cases hpc : ParseSemanticVersion (CleanVersion c) <;>
        rw [hpv, hpc] at h <;> simp at h

/-- The three error paths and the two success components of
`FindBothLatestVersions`, unfolded for reuse. -/
theorem findBoth_success_shape {versions : List String} {constraint abs lat : String}
    (h : FindBothLatestVersions versions constraint = (abs, lat, none)) :
    versions ≠ [] ∧ stableFilter versions ≠ [] ∧
    abs = (sortVersions (stableFilter versions)).getLastD "" ∧
    ((sortVersions (stableFilter versions)).reverse.find?
      (fun v => IsSemverCompatible constraint v)) = some lat := by
  simp only [FindBothLatestVersions] at h
  split at h
  · simp at h
  · rename_i hne
    split at h
    · simp at h
    · rename_i hst
      split at h
      · simp at h
      · rename_i hcl
        refine ⟨hne, hst, ?_, ?_⟩
        · exact (Prod.mk.injEq .. ▸ h).1.symm
        · have hlat : ((sortVersions (stableFilter versions)).reverse.find?
              (fun v => IsSemverCompatible constraint v)).getD "" = lat := by
            have := (Prod.mk.injEq .. ▸ h).2
            exact (Prod.mk.injEq .. ▸ this).1
          cases hf : ((sortVersions (stableFilter versions)).reverse.find?
              (fun v => IsSemverCompatible constraint v)) with
          | none =>
            rw [hf] at hcl
            simp at hcl
          | some x =>
            rw [hf] at hlat
            simp at hlat
            rw [hlat]

theorem mem_stableFilter {v : String} {versions : List String} (h : v ∈ stableFilter versions) :
    v ∈ versions ∧ goContains v '-' = false := by
  have := List.mem_filter.mp h
  exact ⟨this.1, by simpa using this.2⟩

/-- Modelled from the spec's words for comparison only (spec section 4.1):
a caret constraint allows any change that does not alter the left-most
non-zero component of the base version.  This is the rule the claim
ascribes to the code; it is compared against `IsSemverCompatible`. -/
def caretClaimAllows (base cand : SemanticVersion) : Bool :=
  if base.major ≠ 0 then cand.major = base.major
  else if base.minor ≠ 0 then cand.major = 0 && cand.minor = base.minor
  else cand.major = 0 && cand.minor = 0

/-! ## Claims -/

/-- C10: `ParseSemanticVersion` discards everything after the first `-`
(pre-release) and after the first `+` (build metadata), so two version
strings with equal numeric `major.minor.patch` triples are ordered as
equal by `compareSemanticVersions` regardless of suffix; pre-release
precedence is never applied. -/
theorem claim_C10_suffixes_discarded :
    (∀ v r : String, goContains v '-' = false →
      ParseSemanticVersion (v ++ "-" ++ r) = ParseSemanticVersion v) ∧
    (∀ v r : String, goContains v '-' = false → goContains r '-' = false →
      goContains v '+' = false →
      ParseSemanticVersion (v ++ "+" ++ r) = ParseSemanticVersion v) ∧
    (∀ (a b : String) (va vb : SemanticVersion),
      ParseSemanticVersion a = some va → ParseSemanticVersion b = some vb →
      va.major = vb.major → va.minor = vb.minor → va.patch = vb.patch →
      compareSemanticVersions va vb = 0) := by
  refine ⟨parse_append_dash, parse_append_plus, ?_⟩
  intro a b va vb _ _ h1 h2 h3
  simp [compareSemanticVersions, h1, h2, h3]

/-- C10 witness: "1.2.3-beta", "1.2.3+build" and "1.2.3" all parse to the
same triple and compare as equal. -/
theorem claim_C10_suffixes_discarded_witness :
    ParseSemanticVersion ("1.2.3" ++ "-" ++ "beta") = ParseSemanticVersion "1.2.3" ∧
    ParseSemanticVersion ("1.2.3" ++ "+" ++ "build") = ParseSemanticVersion "1.2.3" ∧
    compareSemanticVersions ⟨1, 2, 3⟩ ⟨1, 2, 3⟩ = 0 :=
  ⟨claim_C10_suffixes_discarded.1 "1.2.3" "beta" (by decide),
   claim_C10_suffixes_discarded.2.1 "1.2.3" "build" (by decide) (by decide) (by decide),
   claim_C10_suffixes_discarded.2.2 "1.2.3-beta" "1.2.3" ⟨1, 2, 3⟩ ⟨1, 2, 3⟩
     (by decide) (by decide) rfl rfl rfl⟩

/-- C2 counterexample: the code accepts candidate 0.2.0 for the caret
constraint `^0.1.0` although 0.2.0 alters the left-most non-zero
component (the minor component 1) of the base, so the claimed rule
"keeps major 0 and minor y" does not describe `IsSemverCompatible`. -/
theorem claim_C2_caret_counterexample :
    IsSemverCompatible "^0.1.0" "0.2.0" = true ∧
    caretClaimAllows ⟨0, 1, 0⟩ ⟨0, 2, 0⟩ = false ∧
    ParseSemanticVersion (CleanVersion "^0.1.0") = some ⟨0, 1, 0⟩ ∧
    ParseSemanticVersion "0.2.0" = some ⟨0, 2, 0⟩ := by
  decide

/-- C2 (amended): for a caret constraint (no space, with operator `^`)
whose base parses to `cur`, a candidate without pre-release marker that
parses to `lat` is accepted exactly according to the code's three cases:
base `x.y.z` with `x>0` keeps major `x` and is not below the base;
base `0.y.z` with `y>0` keeps major 0 and has minor at least `y` (minor
bumps are allowed, unlike strict left-most-non-zero caret semantics);
base `0.0.z` keeps major 0, minor 0, with patch at least `z`.  The
`^0.0.1` scenario over 0.0.1 / 0.0.2 / 0.1.0 behaves as the spec states. -/
theorem claim_C2_caret_semantics :
    (∀ (constraint cand : String) (cur lat : SemanticVersion),
      goContains constraint ' ' = false →
      GetVersionPrefix constraint = "^" →
      goContains cand '-' = false →
      ParseSemanticVersion (CleanVersion constraint) = some cur →
      ParseSemanticVersion cand = some lat →
      IsSemverCompatible constraint cand =
        (if cur.major = 0 then
          if cur.minor = 0 then
            lat.major = 0 && lat.minor = 0 && lat.patch ≥ cur.patch
          else
            lat.major = 0 && lat.minor ≥ cur.minor
        else
          lat.major = cur.major &&
            (lat.minor > cur.minor ||
              (lat.minor = cur.minor && lat.patch ≥ cur.patch)))) ∧
    IsSemverCompatible "^0.0.1" "0.0.1" = true ∧
    IsSemverCompatible "^0.0.1" "0.0.2" = true ∧
    IsSemverCompatible "^0.0.1" "0.1.0" = false := by
  refine ⟨?_, by decide, by decide, by decide⟩
  intro constraint cand cur lat hsp hpfx hdash hcur hlat
  unfold IsSemverCompatible
  rw [hsp, hpfx, hcur, hlat]
  simp only [Bool.false_eq_true, if_false, hdash,
    if_neg (by decide : ¬("^" : String) = ""), if_pos (rfl : ("^" : String) = "^")]
  exact if_pos trivial

/-- C2 witness: the amended caret rule evaluated at `^1.2.3` / `1.3.0`. -/
theorem claim_C2_caret_semantics_witness :
    IsSemverCompatible "^1.2.3" "1.3.0" = true := by
  have h := claim_C2_caret_semantics.1 "^1.2.3" "1.3.0" ⟨1, 2, 3⟩ ⟨1, 3, 0⟩
    (by decide) (by decide) (by decide) (by decide) (by decide)
  rw [h]
  decide

/-- C9 counterexample: a caret constraint built from a pre-release base
version is not satisfied by that base version itself, because
`IsSemverCompatible` rejects every candidate containing `-`. -/
theorem claim_C9_counterexample :
    IsSemverCompatible ("^" ++ "1.0.0-beta") "1.0.0-beta" = false := by
  decide

/-- C9 (amended): for every version string `v` without spaces and without
a pre-release marker that parses as a semantic version, the caret
constraint `"^" ++ v` is satisfied by `v` itself. -/
theorem claim_C9_caret_self_satisfied :
    ∀ (v : String) (ver : SemanticVersion),
      goContains v ' ' = false →
      goContains v '-' = false →
      ParseSemanticVersion v = some ver →
      IsSemverCompatible ("^" ++ v) v = true := by
  intro v ver hsp hd hp
  obtain ⟨c, cs, hdata, hdig⟩ := parse_head_digit hd hp
  have hop : isVersionOpChar c = false := by
    cases ho : isVersionOpChar c
    · rfl
    · rw [op_not_digit ho] at hdig
      exact absurd hdig (by simp)
  have hdataApp : ("^" ++ v).data = '^' :: v.data := by
    simp [String.data_append]
  have hcon : goContains ("^" ++ v) ' ' = false := by
    rw [goContains_eq_false_iff, hdataApp]
    intro hmem
    rcases List.mem_cons.mp hmem with h | h
    · exact absurd h (by decide)
    · exact goContains_eq_false_iff.mp hsp h
  have hpfx : GetVersionPrefix ("^" ++ v) = "^" := by
    unfold GetVersionPrefix
    rw [hdataApp, hdata, List.takeWhile_cons, if_pos (by decide), List.takeWhile_cons, hop]
    simp only [Bool.false_eq_true, if_false]
  have hcv : CleanVersion ("^" ++ v) = v := by
    unfold CleanVersion
    rw [hdataApp, hdata, List.dropWhile_cons, if_pos (by decide), List.dropWhile_cons, hop]
    simp only [Bool.false_eq_true, if_false]
    rw [← hdata]
  unfold IsSemverCompatible
  rw [hcon, hpfx, hcv, hp]
  simp only [Bool.false_eq_true, if_false, hd,
    if_neg (by decide : ¬("^" : String) = ""), if_pos (rfl : ("^" : String) = "^")]
  rcases ver with ⟨ma, mi, pa⟩
  by_cases h1 : ma = 0
  · by_cases h2 : mi = 0
    · simp [h1, h2]
    · simp [h1, h2]
  · simp [h1]

/-- C9 witness: `^1.2.3` is satisfied by `1.2.3`. -/
theorem claim_C9_caret_self_satisfied_witness :
    IsSemverCompatible ("^" ++ "1.2.3") "1.2.3" = true :=
  claim_C9_caret_self_satisfied "1.2.3" ⟨1, 2, 3⟩ (by decide) (by decide) (by decide)

/-- C1 counterexample: with candidate pool `[""]` (non-empty after the
pre-release filter) and no satisfying candidate, `FindBothLatestVersions`
returns the constraint error together with an **empty** `absoluteLatest`,
contradicting the claimed "returns the non-empty absoluteLatest". -/
theorem claim_C1_counterexample :
    stableFilter [""] ≠ [] ∧
    FindBothLatestVersions [""] "^1.0.0" =
      ("", "", some "no versions satisfy the constraint ^1.0.0") := by
  decide

/-- C1 (amended): over version lists whose candidate strings are all
non-empty, the dual-result error contract holds: a non-empty input whose
filtered pool is empty fails with the "no stable versions" error; a
non-empty pool with no satisfying candidate returns a non-empty
`absoluteLatest` together with the "no versions satisfy the constraint"
error; and a call that returns without error returns both results
non-empty.  (The input list `[]` itself fails earlier with
"no versions provided", and an empty-string candidate can surface as an
empty `absoluteLatest`, which is what the amendment excludes.) -/
theorem claim_C1_error_contract :
    (∀ (versions : List String) (constraint : String),
      versions ≠ [] → stableFilter versions = [] →
      FindBothLatestVersions versions constraint =
        ("", "", some "no stable versions available")) ∧
    (∀ (versions : List String) (constraint : String),
      (∀ v ∈ versions, v ≠ "") →
      stableFilter versions ≠ [] →
      (∀ v ∈ versions, IsSemverCompatible constraint v = false) →
      ∃ abs, FindBothLatestVersions versions constraint =
        (abs, "", some ("no versions satisfy the constraint " ++ constraint)) ∧
        abs ≠ "") ∧
    (∀ (versions : List String) (constraint abs lat : String),
      (∀ v ∈ versions, v ≠ "") →
      FindBothLatestVersions versions constraint = (abs, lat, none) →
      abs ≠ "" ∧ lat ≠ "") := by
  refine ⟨?_, ?_, ?_⟩
  · intro versions constraint hne hst
    unfold FindBothLatestVersions
    rw [if_neg hne]
    simp only [hst, if_pos rfl]
    exact if_pos trivial
  · intro versions constraint hnonempty hst hnosat
    have hne : versions ≠ [] := by
      intro h
      rw [h] at hst
      exact hst rfl
    have habs_mem : (sortVersions (stableFilter versions)).getLastD "" ∈ versions := by
      have hmem := getLastD_mem (sortVersions_ne_nil hst) ""
      exact (mem_stableFilter (mem_sortVersions.mp hmem)).1
    have hfind : ((sortVersions (stableFilter versions)).reverse.find?
        (fun v => IsSemverCompatible constraint v)) = none := by
      rw [List.find?_eq_none]
      intro x hx
      have hxv : x ∈ versions :=
        (mem_stableFilter (mem_sortVersions.mp (List.mem_reverse.mp hx))).1
      simp [hnosat x hxv]
    refine ⟨(sortVersions (stableFilter versions)).getLastD "", ?_, hnonempty _ habs_mem⟩
    unfold FindBothLatestVersions
    rw [if_neg hne]
    simp only [hst, if_neg (by exact hst), hfind, Option.getD_none, if_pos rfl]
    simp
  · intro versions constraint abs lat hnonempty h
    obtain ⟨hne, hst, habs, hfind⟩ := findBoth_success_shape h
    constructor
    · have hmem := getLastD_mem (sortVersions_ne_nil hst) ""
      exact habs ▸ hnonempty _ (mem_stableFilter (mem_sortVersions.mp hmem)).1
    · have hmem := List.mem_of_find?_eq_some hfind
      exact hnonempty _
        (mem_stableFilter (mem_sortVersions.mp (List.mem_reverse.mp hmem))).1

/-- C1 witness: the three parts of the error contract at concrete inputs:
only pre-releases available; constraint `^2.0.0` unsatisfiable over 1.x;
and the fully successful call. -/
theorem claim_C1_error_contract_witness :
    FindBothLatestVersions ["1.0.0-beta"] "^1.0.0" =
      ("", "", some "no stable versions available") ∧
    (∃ abs, FindBothLatestVersions ["1.0.0", "1.1.0"] "^2.0.0" =
      (abs, "", some ("no versions satisfy the constraint " ++ "^2.0.0")) ∧ abs ≠ "") ∧
    ("1.1.0" ≠ "" ∧ "1.1.0" ≠ "") :=
  ⟨claim_C1_error_contract.1 ["1.0.0-beta"] "^1.0.0" (by decide) (by decide),
   claim_C1_error_contract.2.1 ["1.0.0", "1.1.0"] "^2.0.0"
     (by decide) (by decide) (by decide),
   claim_C1_error_contract.2.2 ["1.0.0", "1.1.0"] "^1.0.0" "1.1.0" "1.1.0"
     (by decide) (by decide)⟩

/-- C3 counterexample: even though the constraint's own base version
`1.0.0-beta` is a pre-release, the pre-release candidate `1.0.0-beta` is
still dropped from the pool: the pool keeps only `0.9.0`, and the call
reports "no versions satisfy the constraint" with `absoluteLatest =
"0.9.0"` instead of retaining the pre-release. -/
theorem claim_C3_counterexample :
    goContains (CleanVersion "^1.0.0-beta") '-' = true ∧
    stableFilter ["0.9.0", "1.0.0-beta"] = ["0.9.0"] ∧
    FindBothLatestVersions ["0.9.0", "1.0.0-beta"] "^1.0.0-beta" =
      ("0.9.0", "", some "no versions satisfy the constraint ^1.0.0-beta") := by
  decide

/-- C3 (amended): candidates carrying a pre-release marker are dropped
from the pool before computing `absoluteLatest`/`constraintLatest`
unconditionally — also when the constraint's base version is itself a
pre-release: any non-empty returned value is a dash-free member of the
input. -/
theorem claim_C3_prerelease_always_dropped :
    ∀ (versions : List String) (constraint abs lat : String) (err : Option String),
      FindBothLatestVersions versions constraint = (abs, lat, err) →
      (abs ≠ "" → abs ∈ versions ∧ goContains abs '-' = false) ∧
      (lat ≠ "" → lat ∈ versions ∧ goContains lat '-' = false) := by
  intro versions constraint abs lat err h
  simp only [FindBothLatestVersions] at h
  split at h
  · injection h with h1 h23
    injection h23 with h2 h3
    exact ⟨fun hc => absurd h1.symm hc, fun hc => absurd h2.symm hc⟩
  · split at h
    · injection h with h1 h23
      injection h23 with h2 h3
      exact ⟨fun hc => absurd h1.symm hc, fun hc => absurd h2.symm hc⟩
    · rename_i hst
      have habs : ∀ a : String,
          a = (sortVersions (stableFilter versions)).getLastD "" →
          a ≠ "" → a ∈ versions ∧ goContains a '-' = false := by
        intro a ha _
        have hmem := getLastD_mem (sortVersions_ne_nil hst) ""
        exact ha ▸ mem_stableFilter (mem_sortVersions.mp hmem)
      split at h
      · injection h with h1 h23
        injection h23 with h2 h3
        exact ⟨habs abs h1.symm, fun hc => absurd h2.symm hc⟩
      · rename_i hcl
        injection h with h1 h23
        injection h23 with h2 h3
        refine ⟨habs abs h1.symm, fun _ => ?_⟩
        cases hf : ((sortVersions (stableFilter versions)).reverse.find?
            (fun v => IsSemverCompatible constraint v)) with
        | none => rw [hf] at hcl; simp at hcl
        | some x =>
          rw [hf] at h2
          simp only [Option.getD_some] at h2
          have hmem := List.mem_of_find?_eq_some hf
          exact h2 ▸ mem_stableFilter (mem_sortVersions.mp (List.mem_reverse.mp hmem))

/-- C3 witness: concrete instantiation where both results are returned. -/
theorem claim_C3_prerelease_always_dropped_witness :
    ("2.0.0" ≠ "" → "2.0.0" ∈ ["1.0.0", "1.1.0-alpha", "1.1.0", "2.0.0"] ∧
      goContains "2.0.0" '-' = false) ∧
    ("1.1.0" ≠ "" → "1.1.0" ∈ ["1.0.0", "1.1.0-alpha", "1.1.0", "2.0.0"] ∧
      goContains "1.1.0" '-' = false) :=
  claim_C3_prerelease_always_dropped ["1.0.0", "1.1.0-alpha", "1.1.0", "2.0.0"]
    "^1.0.0" "2.0.0" "1.1.0" none (by decide)

/-- C6 counterexample: the unparsable candidate string "abc" is **not**
discarded; under the fallback string comparison it sorts above "1.0.0"
and is returned as `absoluteLatest`. -/
theorem claim_C6_counterexample :
    ParseSemanticVersion "abc" = none ∧
    FindBothLatestVersions ["abc", "1.0.0"] "^1.0.0" = ("abc", "1.0.0", none) := by
  decide

/-- C6 (amended): unparsable candidates are retained in the pool (ordered
by the fallback string comparison), so `absoluteLatest` can be an
unparsable string; the pool is only filtered of dash-carrying candidates
and sorted, `absoluteLatest` is the last element of the sorted pool, and
`constraintLatest` — produced by the satisfaction scan — always parses. -/
theorem claim_C6_pool_members :
    ∀ (versions : List String) (constraint abs lat : String),
      FindBothLatestVersions versions constraint = (abs, lat, none) →
      abs ∈ versions ∧ lat ∈ versions ∧
      goContains abs '-' = false ∧ goContains lat '-' = false ∧
      IsSemverCompatible constraint lat = true ∧
      (ParseSemanticVersion lat).isSome = true ∧
      abs = (sortVersions (stableFilter versions)).getLastD "" := by
  intro versions constraint abs lat h
  obtain ⟨hne, hst, habs, hfind⟩ := findBoth_success_shape h
  have hsat : IsSemverCompatible constraint lat = true := by
    have := List.find?_some hfind
    simpa using this
  have habs_mem := mem_stableFilter (mem_sortVersions.mp
    (habs ▸ getLastD_mem (sortVersions_ne_nil hst) ""))
  have hlat_mem := mem_stableFilter (mem_sortVersions.mp
    (List.mem_reverse.mp (List.mem_of_find?_eq_some hfind)))
  exact ⟨habs_mem.1, hlat_mem.1, habs_mem.2, hlat_mem.2, hsat, sat_parses hsat, habs⟩

/-- C6 witness: concrete successful call with an unparsable candidate in
the pool. -/
theorem claim_C6_pool_members_witness :
    "abc" ∈ ["abc", "1.0.0"] ∧ "1.0.0" ∈ ["abc", "1.0.0"] ∧
    goContains "abc" '-' = false ∧ goContains "1.0.0" '-' = false ∧
    IsSemverCompatible "^1.0.0" "1.0.0" = true ∧
    (ParseSemanticVersion "1.0.0").isSome = true ∧
    "abc" = (sortVersions (stableFilter ["abc", "1.0.0"])).getLastD "" :=
  claim_C6_pool_members ["abc", "1.0.0"] "^1.0.0" "abc" "1.0.0" (by decide)

/-! ## internal/shared/cache.go -/

/-- The `CacheEntry` struct.  The Go field `Type` (the ecosystem) is named
`ptype` here because `Type` is reserved in Lean; `Expiry` (a `time.Time`)
is modelled as whole seconds since the Unix epoch, in UTC. -/
structure CacheEntry where
  packageName : String
  ptype : String
  currentVersion : String
  constraint : String
  absoluteLatest : String
  constraintLatest : String
  expiry : Nat
deriving Repr, DecidableEq

/-- Go `generateCacheKey`: `fmt.Sprintf("%s|%s|%s|%s", ...)`. -/
def generateCacheKey (pkg packageType current constraint : String) : String :=
  pkg ++ "|" ++ packageType ++ "|" ++ current ++ "|" ++ constraint

/-- The key under which an entry is stored by `Set` and `LoadEntries`. -/
def CacheEntry.key (e : CacheEntry) : String :=
  generateCacheKey e.packageName e.ptype e.currentVersion e.constraint

/-- The in-memory `entries map[string]CacheEntry`, modelled as an
association list (Go maps have unique keys; lemmas that need uniqueness
take a `Nodup` hypothesis on the stored keys). -/
abbrev Cache := List (String × CacheEntry)

/-- Go map read `c.entries[key]`. -/
def Cache.find : Cache → String → Option CacheEntry
  | [], _ => none
  | (k, e) :: rest, key => if k = key then some e else Cache.find rest key

/-- Go `delete(c.entries, key)`. -/
def Cache.eraseKey (c : Cache) (key : String) : Cache :=
  c.filter fun p => p.1 != key

/-- Go map write `c.entries[key] = e` (used by `Set` and `LoadEntries`):
replace the binding if the key is present, else append it. -/
def Cache.setKey : Cache → String → CacheEntry → Cache
  | [], key, e => [(key, e)]
  | (k, x) :: rest, key, e =>
    if k = key then (k, e) :: rest else (k, x) :: Cache.setKey rest key e

/-- Go `Cache.Get`: a miss both when the key is absent and when the entry
has expired (`time.Now().After(entry.Expiry)`, i.e. `now > expiry`); the
expired entry is deleted on the way.  Returns the Go `(entry, ok)` pair as
an `Option` plus the possibly-updated store. -/
def Cache.Get (c : Cache) (key : String) (now : Nat) : Option CacheEntry × Cache :=
  match Cache.find c key with
  | none => (none, c)
  | some entry =>
    if now > entry.expiry then (none, Cache.eraseKey c key)
    else (some entry, c)

/-- Go `Cache.Set`: overwrite the entry stored under the entry's own key. -/
def Cache.Set (c : Cache) (e : CacheEntry) : Cache :=
  Cache.setKey c (CacheEntry.key e) e

theorem find_eraseKey (c : Cache) (key : String) :
    Cache.find (Cache.eraseKey c key) key = none := by
  induction c with
  | nil => rfl
  | cons p rest ih =>
    obtain ⟨k, x⟩ := p
    by_cases hk : k = key
    · simpa [Cache.eraseKey, hk] using ih
    · simpa [Cache.eraseKey, Cache.find, hk] using ih

theorem find_setKey (c : Cache) (key : String) (e : CacheEntry) :
    Cache.find (Cache.setKey c key e) key = some e := by
  induction c with
  | nil => simp [Cache.setKey, Cache.find]
  | cons p rest ih =>
    obtain ⟨k, x⟩ := p
    by_cases hk : k = key
    · simp [Cache.setKey, Cache.find, hk]
    · simp [Cache.setKey, Cache.find, hk, ih]

/-- C7: `Get` returns a miss when the key is absent, and a miss when the
stored entry's expiry lies strictly in the past — deleting the expired
entry from the store — and consequently an entry whose expiry is in the
past is never returned, even immediately after `Set` of that entry. -/
theorem claim_C7_get_miss_semantics :
    (∀ (c : Cache) (key : String) (now : Nat),
      Cache.find c key = none → Cache.Get c key now = (none, c)) ∧
    (∀ (c : Cache) (key : String) (now : Nat) (e : CacheEntry),
      Cache.find c key = some e → e.expiry < now →
      Cache.Get c key now = (none, Cache.eraseKey c key) ∧
      Cache.find (Cache.eraseKey c key) key = none) ∧
    (∀ (c : Cache) (e : CacheEntry) (now : Nat),
      e.expiry < now →
      (Cache.Get (Cache.Set c e) (CacheEntry.key e) now).1 = none) := by
  refine ⟨?_, ?_, ?_⟩
  · intro c key now h
    simp [Cache.Get, h]
  · intro c key now e h hexp
    refine ⟨?_, find_eraseKey c key⟩
    simp [Cache.Get, h, hexp]
  · intro c e now hexp
    simp [Cache.Get, Cache.Set, find_setKey, hexp]

/-- C7 witness: a concrete expired entry is not returned after `Set`, and
a concrete expired store read deletes the entry. -/
theorem claim_C7_get_miss_semantics_witness :
    Cache.Get ([] : Cache) "nope" 5 = (none, []) ∧
    ((Cache.Get (Cache.Set [] ⟨"pkg", "npm", "1.0.0", "^1.0.0", "2.0.0", "1.5.0", 100⟩)
      (CacheEntry.key ⟨"pkg", "npm", "1.0.0", "^1.0.0", "2.0.0", "1.5.0", 100⟩) 200).1 = none) :=
  ⟨claim_C7_get_miss_semantics.1 [] "nope" 5 (by decide),
   claim_C7_get_miss_semantics.2.2 [] ⟨"pkg", "npm", "1.0.0", "^1.0.0", "2.0.0", "1.5.0", 100⟩
     200 (by decide)⟩

/-! ## The manifest rewriters (internal/npm/updater.go, internal/pub/updater.go)

Both updaters split the file into lines on `\n`, locate each outdated
dependency's version token on its anchored line with a regex, substitute
the preserved comparator operator run plus the new version, and join the
lines back; any anchor failure returns an error before the file is
written.  The file-system write is modelled by `runUpdate`: the new
content on success, the original bytes on error. -/

instance {ε α : Type} [DecidableEq ε] [DecidableEq α] : DecidableEq (Except ε α) := fun x y =>
  match x, y with
  | .ok a, .ok b =>
    if h : a = b then .isTrue (h ▸ rfl) else .isFalse fun hh => h (Except.ok.inj hh)
  | .error a, .error b =>
    if h : a = b then .isTrue (h ▸ rfl) else .isFalse fun hh => h (Except.error.inj hh)
  | .ok _, .error _ => .isFalse fun hh => Except.noConfusion hh
  | .error _, .ok _ => .isFalse fun hh => Except.noConfusion hh

/-- Go `strings.Split(content, "\n")` lifted to `String` lines. -/
def splitLines (content : String) : List String :=
  (goSplit '\n' content.data).map fun l => ⟨l⟩

/-- Go `strings.Join(lines, "\n")` for a one-character separator. -/
def goJoin (sep : Char) : List (List Char) → List Char
  | [] => []
  | [x] => x
  | x :: xs => x ++ sep :: goJoin sep xs

/-- Go `strings.Join(lines, "\n")` lifted to `String` lines. -/
def joinLines (lines : List String) : String :=
  ⟨goJoin '\n' (lines.map String.data)⟩

theorem goJoin_goSplit (sep : Char) (l : List Char) :
    goJoin sep (goSplit sep l) = l := by
  induction l with
  | nil => rfl
  | cons c rest ih =>
    unfold goSplit
    by_cases hc : c = sep
    · subst hc
      rw [if_pos rfl]
      cases hg : goSplit c rest with
      | nil => exact absurd hg (goSplit_ne_nil c rest)
      | cons g gs =>
        rw [hg] at ih
        show goJoin c ([] :: g :: gs) = c :: rest
        unfold goJoin
        simpa using ih
    · rw [if_neg hc]
      cases hg : goSplit sep rest with
      | nil => exact absurd hg (goSplit_ne_nil sep rest)
      | cons g gs =>
        rw [hg] at ih
        cases gs with
        | nil => simpa [goJoin] using ih
        | cons g2 gs2 =>
          show goJoin sep ((c :: g) :: g2 :: gs2) = c :: rest
          unfold goJoin
          rw [← ih]
          simp [goJoin]

theorem joinLines_splitLines (content : String) :
    joinLines (splitLines content) = content := by
  unfold joinLines splitLines
  rw [List.map_map]
  have : (String.data ∘ fun l : List Char => (⟨l⟩ : String)) = id := by
    funext l
    rfl
  rw [this, List.map_id, goJoin_goSplit]

/-- The `DependencyType` enum of internal/shared/types.go. -/
inductive DependencyType where
  | Dependencies
  | DevDependencies
  | PeerDependencies
deriving Repr, DecidableEq

/-- The `OutdatedDependency` struct of internal/shared/types.go (Go field
`Type` is named `dtype`). -/
structure OutdatedDependency where
  name : String
  currentVersion : String
  latestVersion : String
  originalVersion : String
  hostedURL : String
  dtype : DependencyType
  lineNumber : Int
deriving Repr, DecidableEq

/-- Matcher for the npm updater regex `("NAME"\s*:\s*)"([^"]*)"` anchored
at the start of `l0`: on success returns the capture group 1, the old
version (group 2) and the remainder of the line after the match. -/
def npmMatchHere (name l0 : List Char) : Option (List Char × List Char × List Char) :=
  let lit := '"' :: (name ++ ['"'])
  if l0.take lit.length = lit then
    let l1 := l0.drop lit.length
    let sp1 := l1.takeWhile isRegexSpace
    match l1.dropWhile isRegexSpace with
    | ':' :: l3 =>
      let sp2 := l3.takeWhile isRegexSpace
      match l3.dropWhile isRegexSpace with
      | '"' :: l5 =>
        let ver := l5.takeWhile fun c => c != '"'
        match l5.dropWhile (fun c => c != '"') with
        | '"' :: l6 => some (lit ++ sp1 ++ ':' :: sp2, ver, l6)
        | _ => none
      | _ => none
    | _ => none
  else none

/-- Go `versionRegex.FindStringSubmatch(line)` for the npm pattern:
leftmost match, returning `(group 1, old version)`. -/
def npmFindMatch (name : List Char) : List Char → Option (List Char × List Char)
  | [] => none
  | c :: rest =>
    match npmMatchHere name (c :: rest) with
    | some (g1, ver, _) => some (g1, ver)
    | none => npmFindMatch name rest

/-- Go `versionRegex.ReplaceAllString(line, fmt.Sprintf("${1}\"%s\"", newVersion))`
for the npm pattern: every non-overlapping leftmost match is replaced by
its own group 1 followed by the quoted new version.  The fuel argument
(instantiated with the line length, an upper bound on the number of scan
steps since every step consumes at least one character) keeps the
recursion structural. -/
def npmReplaceAllF (name newVer : List Char) : Nat → List Char → List Char
  | 0, l => l
  | _ + 1, [] => []
  | fuel + 1, c :: rest =>
    match npmMatchHere name (c :: rest) with
    | some (g1, _, l6) => g1 ++ '"' :: (newVer ++ '"' :: npmReplaceAllF name newVer fuel l6)
    | none => c :: npmReplaceAllF name newVer fuel rest

/-- Entry point of the npm replace-all. -/
def npmReplaceAll (name newVer l : List Char) : List Char :=
  npmReplaceAllF name newVer l.length l

/-- Matcher for the pub updater regex `(\s*KEY\s*:\s*)([^\s#]+)` anchored
at the start of `l0` (`KEY` is the package name, or the literal `version`
for hosted packages). -/
def pubMatchHere (key l0 : List Char) : Option (List Char × List Char × List Char) :=
  let sp0 := l0.takeWhile isRegexSpace
  let l1 := l0.dropWhile isRegexSpace
  if l1.take key.length = key then
    let l2 := l1.drop key.length
    let sp1 := l2.takeWhile isRegexSpace
    match l2.dropWhile isRegexSpace with
    | ':' :: l3 =>
      let sp2 := l3.takeWhile isRegexSpace
      let l4 := l3.dropWhile isRegexSpace
      let tok := l4.takeWhile fun c => !(isRegexSpace c) && c != '#'
      if tok = [] then none
      else some (sp0 ++ key ++ sp1 ++ ':' :: sp2, tok, l4.drop tok.length)
    | _ => none
  else none

/-- Leftmost match of the pub pattern. -/
def pubFindMatch (key : List Char) : List Char → Option (List Char × List Char)
  | [] => none
  | c :: rest =>
    match pubMatchHere key (c :: rest) with
    | some (g1, ver, _) => some (g1, ver)
    | none => pubFindMatch key rest

/-- Replace-all for the pub pattern, replacement `${1}NEWVERSION`. -/
def pubReplaceAllF (key newVer : List Char) : Nat → List Char → List Char
  | 0, l => l
  | _ + 1, [] => []
  | fuel + 1, c :: rest =>
    match pubMatchHere key (c :: rest) with
    | some (g1, _, l6) => g1 ++ newVer ++ pubReplaceAllF key newVer fuel l6
    | none => c :: pubReplaceAllF key newVer fuel rest

/-- Entry point of the pub replace-all. -/
def pubReplaceAll (key newVer l : List Char) : List Char :=
  pubReplaceAllF key newVer l.length l

namespace npm

/-- One iteration of the npm update loop: validate the anchored line
number, find the dependency on that line, substitute the preserved
operator run plus the new version. -/
def updateOne (lines : List String) (dep : OutdatedDependency) :
    Except String (List String) :=
  if dep.lineNumber < 1 ∨ dep.lineNumber > (lines.length : Int) then
    .error ("invalid line number " ++ toString dep.lineNumber ++
      " for dependency " ++ dep.name)
  else
    let lineIndex := (dep.lineNumber - 1).toNat
    let line := lines.getD lineIndex ""
    match npmFindMatch dep.name.data line.data with
    | none =>
      .error ("could not find " ++ dep.name ++ " on line " ++
        toString dep.lineNumber ++ " for updating")
    | some (_, oldVersion) =>
      let newVersion := GetVersionPrefix ⟨oldVersion⟩ ++ dep.latestVersion
      .ok (lines.set lineIndex ⟨npmReplaceAll dep.name.data newVersion.data line.data⟩)

/-- The npm update loop over all dependencies to update. -/
def updateLines : List String → List OutdatedDependency → Except String (List String)
  | lines, [] => .ok lines
  | lines, d :: ds =>
    match updateOne lines d with
    | .error e => .error e
    | .ok l2 => updateLines l2 ds

/-- The peer-dependency filter at the start of npm `UpdateDependencies`. -/
def filterDeps (outdated : List OutdatedDependency) (includePeerDependencies : Bool) :
    List OutdatedDependency :=
  outdated.filter fun d =>
    !(d.dtype = DependencyType.PeerDependencies && !includePeerDependencies)

/-- Go npm `UpdateDependencies` as a pure content transformer: `.ok` is
the content written back, `.error` means the file is not written (an
empty update list returns before reading the file, leaving the bytes
unchanged, modelled as `.ok content`). -/
def UpdateDependencies (content : String) (outdated : List OutdatedDependency)
    (includePeerDependencies : Bool) : Except String String :=
  let dependenciesToUpdate := filterDeps outdated includePeerDependencies
  if dependenciesToUpdate = [] then .ok content
  else
    match updateLines (splitLines content) dependenciesToUpdate with
    | .error e => .error e
    | .ok ls => .ok (joinLines ls)

/-- The observable file bytes after the call: new content on success,
original bytes on error (`os.WriteFile` only runs after the loop). -/
def runUpdate (content : String) (outdated : List OutdatedDependency)
    (includePeerDependencies : Bool) : String :=
  match UpdateDependencies content outdated includePeerDependencies with
  | .ok c => c
  | .error _ => content

end npm

namespace pub

/-- One iteration of the pub update loop; hosted packages anchor on the
literal `version` key, simple packages on the package name. -/
def updateOne (lines : List String) (dep : OutdatedDependency) :
    Except String (List String) :=
  if dep.lineNumber < 1 ∨ dep.lineNumber > (lines.length : Int) then
    .error ("invalid line number " ++ toString dep.lineNumber ++
      " for dependency " ++ dep.name)
  else
    let lineIndex := (dep.lineNumber - 1).toNat
    let line := lines.getD lineIndex ""
    let key : List Char := if dep.hostedURL ≠ "" then "version".data else dep.name.data
    match pubFindMatch key line.data with
    | none =>
      .error ("could not find " ++ dep.name ++ " on line " ++
        toString dep.lineNumber ++ " for updating")
    | some (_, oldVersion) =>
      let newVersion := GetVersionPrefix ⟨oldVersion⟩ ++ dep.latestVersion
      .ok (lines.set lineIndex ⟨pubReplaceAll key newVersion.data line.data⟩)

/-- The pub update loop. -/
def updateLines : List String → List OutdatedDependency → Except String (List String)
  | lines, [] => .ok lines
  | lines, d :: ds =>
    match updateOne lines d with
    | .error e => .error e
    | .ok l2 => updateLines l2 ds

/-- Go pub `UpdateDependencies` as a pure content transformer (pub
rejects `includePeerDependencies` outright, before reading the file). -/
def UpdateDependencies (content : String) (outdated : List OutdatedDependency)
    (includePeerDependencies : Bool) : Except String String :=
  if includePeerDependencies then .error "peer dependencies are not supported by pub"
  else if outdated = [] then .ok content
  else
    match updateLines (splitLines content) outdated with
    | .error e => .error e
    | .ok ls => .ok (joinLines ls)

/-- The observable file bytes after the call. -/
def runUpdate (content : String) (outdated : List OutdatedDependency)
    (includePeerDependencies : Bool) : String :=
  match UpdateDependencies content outdated includePeerDependencies with
  | .ok c => c
  | .error _ => content

end pub

/-- Substring test (Go `strings.Contains`) on character lists. -/
def listHasSub (needle : List Char) : List Char → Bool
  | [] => needle.isEmpty
  | c :: rest => if (c :: rest).take needle.length = needle then true else listHasSub needle rest

/-- The duplicate-name manifest of the npm updater test: `react` appears
in `dependencies` (line 5, `^18.0.0`) and in `peerDependencies` (line 11,
`>=16.0.0`). -/
def duplicateManifest : String :=
  "\x7b\n  \"name\": \"test-package\",\n  \"version\": \"1.0.0\",\n  \"dependencies\": \x7b\n    \"react\": \"^18.0.0\"\n  \x7d,\n  \"devDependencies\": \x7b\n    \"eslint\": \"^8.45.0\"\n  \x7d,\n  \"peerDependencies\": \x7b\n    \"react\": \">=16.0.0\"\n  \x7d\n\x7d"

/-- The outdated record for the first `react` occurrence (line 5). -/
def depReactRuntime : OutdatedDependency :=
  ⟨"react", "18.0.0", "18.2.0", "^18.0.0", "", DependencyType.Dependencies, 5⟩

/-- A minified manifest carrying both occurrences of `foo` on line 1. -/
def oneLineManifest : String :=
  "\x7b\"dependencies\": \x7b\"foo\": \"^1.0.0\"\x7d, \"peerDependencies\": \x7b\"foo\": \">=16.0.0\"\x7d\x7d"

/-- The outdated record for the first `foo` occurrence (line 1). -/
def oneLineDep : OutdatedDependency :=
  ⟨"foo", "1.0.0", "2.0.0", "^1.0.0", "", DependencyType.Dependencies, 1⟩

theorem pub_updateLines_cons (lines : List String) (d : OutdatedDependency)
    (ds : List OutdatedDependency) :
    pub.updateLines lines (d :: ds) =
      match pub.updateOne lines d with
      | .error e => .error e
      | .ok l2 => pub.updateLines l2 ds := rfl

theorem pub_updateLines_append (pre ds : List OutdatedDependency) (lines : List String) :
    pub.updateLines lines (pre ++ ds) =
      match pub.updateLines lines pre with
      | .error e => .error e
      | .ok l2 => pub.updateLines l2 ds := by
  induction pre generalizing lines with
  | nil => simp [pub.updateLines]
  | cons d pre ih =>
    rw [List.cons_append, pub_updateLines_cons, pub_updateLines_cons]
    cases h : pub.updateOne lines d with
    | error e => rfl
    | ok l2 => exact ih l2

theorem npm_updateLines_cons (lines : List String) (d : OutdatedDependency)
    (ds : List OutdatedDependency) :
    npm.updateLines lines (d :: ds) =
      match npm.updateOne lines d with
      | .error e => .error e
      | .ok l2 => npm.updateLines l2 ds := rfl

theorem npm_updateLines_append (pre ds : List OutdatedDependency) (lines : List String) :
    npm.updateLines lines (pre ++ ds) =
      match npm.updateLines lines pre with
      | .error e => .error e
      | .ok l2 => npm.updateLines l2 ds := by
  induction pre generalizing lines with
  | nil => simp [npm.updateLines]
  | cons d pre ih =>
    rw [List.cons_append, npm_updateLines_cons, npm_updateLines_cons]
    cases h : npm.updateOne lines d with
    | error e => rfl
    | ok l2 => exact ih l2

theorem npm_filterDeps_true (outdated : List OutdatedDependency) :
    npm.filterDeps outdated true = outdated := by
  unfold npm.filterDeps
  induction outdated with
  | nil => rfl
  | cons d ds ih => simp_all

theorem getD_set_ne {α : Type} (l : List α) (i j : Nat) (x d : α) (h : j ≠ i) :
    (l.set i x).getD j d = l.getD j d := by
  induction l generalizing i j with
  | nil => simp
  | cons a as ih =>
    cases i with
    | zero =>
      cases j with
      | zero => exact absurd rfl h
      | succ j2 => simp [List.set]
    | succ i2 =>
      cases j with
      | zero => simp [List.set]
      | succ j2 =>
        simpa [List.set] using ih i2 j2 fun hh => h (by rw [hh])

/-- C4: whenever some outdated entry's anchor fails during the rewrite —
its line number out of range or its name/version token not found on the
anchored line (both surface as an `updateOne` error at that entry's turn)
— the whole `UpdateDependencies` returns that error and the manifest
bytes are unchanged; pub additionally rejects the peer-dependency flag
before even reading the file. -/
theorem claim_C4_anchor_failure_aborts :
    (∀ (content : String) (pre : List OutdatedDependency) (dep : OutdatedDependency)
        (post : List OutdatedDependency) (lines2 : List String) (e0 : String),
      pub.updateLines (splitLines content) pre = .ok lines2 →
      pub.updateOne lines2 dep = .error e0 →
      pub.UpdateDependencies content (pre ++ dep :: post) false = .error e0 ∧
      pub.runUpdate content (pre ++ dep :: post) false = content) ∧
    (∀ (content : String) (pre : List OutdatedDependency) (dep : OutdatedDependency)
        (post : List OutdatedDependency) (lines2 : List String) (e0 : String),
      npm.updateLines (splitLines content) pre = .ok lines2 →
      npm.updateOne lines2 dep = .error e0 →
      npm.UpdateDependencies content (pre ++ dep :: post) true = .error e0 ∧
      npm.runUpdate content (pre ++ dep :: post) true = content) ∧
    (∀ (content : String) (outdated : List OutdatedDependency),
      pub.UpdateDependencies content outdated true =
        .error "peer dependencies are not supported by pub" ∧
      pub.runUpdate content outdated true = content) := by
  refine ⟨?_, ?_, ?_⟩
  · intro content pre dep post lines2 e0 hpre hfail
    have herr : pub.UpdateDependencies content (pre ++ dep :: post) false = .error e0 := by
      unfold pub.UpdateDependencies
      rw [if_neg (by simp), if_neg (by simp), pub_updateLines_append, hpre]
      show (match pub.updateLines lines2 (dep :: post) with
        | .error e => (.error e : Except String String)
        | .ok ls => .ok (joinLines ls)) = .error e0
      unfold pub.updateLines
      rw [hfail]
    exact ⟨herr, by unfold pub.runUpdate; rw [herr]⟩
  · intro content pre dep post lines2 e0 hpre hfail
    have herr : npm.UpdateDependencies content (pre ++ dep :: post) true = .error e0 := by
      unfold npm.UpdateDependencies
      rw [npm_filterDeps_true, if_neg (by simp), npm_updateLines_append, hpre]
      show (match npm.updateLines lines2 (dep :: post) with
        | .error e => (.error e : Except String String)
        | .ok ls => .ok (joinLines ls)) = .error e0
      unfold npm.updateLines
      rw [hfail]
    exact ⟨herr, by unfold npm.runUpdate; rw [herr]⟩
  · intro content outdated
    have herr : pub.UpdateDependencies content outdated true =
        .error "peer dependencies are not supported by pub" := by
      unfold pub.UpdateDependencies
      rw [if_pos rfl]
    exact ⟨herr, by unfold pub.runUpdate; rw [herr]⟩

/-- C4 witness: a line number out of range (pub), a missing name token on
the anchored line (npm), and the pub peer-flag rejection, each leaving
the concrete manifest bytes unchanged. -/
theorem claim_C4_anchor_failure_aborts_witness :
    (pub.UpdateDependencies "name: test\ndependencies:\n  http: ^0.13.0\n"
        [⟨"http", "0.13.0", "1.0.0", "^0.13.0", "", DependencyType.Dependencies, 99⟩] false =
      .error "invalid line number 99 for dependency http" ∧
     pub.runUpdate "name: test\ndependencies:\n  http: ^0.13.0\n"
        [⟨"http", "0.13.0", "1.0.0", "^0.13.0", "", DependencyType.Dependencies, 99⟩] false =
      "name: test\ndependencies:\n  http: ^0.13.0\n") ∧
    (npm.UpdateDependencies oneLineManifest
        [⟨"missing", "1.0.0", "2.0.0", "^1.0.0", "", DependencyType.Dependencies, 1⟩] true =
      .error "could not find missing on line 1 for updating" ∧
     npm.runUpdate oneLineManifest
        [⟨"missing", "1.0.0", "2.0.0", "^1.0.0", "", DependencyType.Dependencies, 1⟩] true =
      oneLineManifest) ∧
    (pub.UpdateDependencies "a: 1\n" [] true =
      .error "peer dependencies are not supported by pub" ∧
     pub.runUpdate "a: 1\n" [] true = "a: 1\n") :=
  ⟨claim_C4_anchor_failure_aborts.1
      "name: test\ndependencies:\n  http: ^0.13.0\n" []
      ⟨"http", "0.13.0", "1.0.0", "^0.13.0", "", DependencyType.Dependencies, 99⟩ []
      (splitLines "name: test\ndependencies:\n  http: ^0.13.0\n")
      "invalid line number 99 for dependency http"
      (by decide) (by decide),
   claim_C4_anchor_failure_aborts.2.1 oneLineManifest []
      ⟨"missing", "1.0.0", "2.0.0", "^1.0.0", "", DependencyType.Dependencies, 1⟩ []
      (splitLines oneLineManifest)
      "could not find missing on line 1 for updating"
      (by decide) (by decide),
   claim_C4_anchor_failure_aborts.2.2 "a: 1\n" []⟩

/-- C5 counterexample: when the two occurrences of the same package sit
on the **same** line (a minified manifest), updating only the first
occurrence rewrites the second occurrence too (its `>=16.0.0` token is
destroyed and replaced with the first occurrence's `^`-prefixed version),
so the second occurrence's text is not byte-identical. -/
theorem claim_C5_counterexample :
    npm.UpdateDependencies oneLineManifest [oneLineDep] false =
      .ok "\x7b\"dependencies\": \x7b\"foo\": \"^2.0.0\"\x7d, \"peerDependencies\": \x7b\"foo\": \"^2.0.0\"\x7d\x7d" ∧
    listHasSub ">=16.0.0".data oneLineManifest.data = true ∧
    listHasSub ">=16.0.0".data
      "\x7b\"dependencies\": \x7b\"foo\": \"^2.0.0\"\x7d, \"peerDependencies\": \x7b\"foo\": \"^2.0.0\"\x7d\x7d".data = false := by
  decide

/-- C5 (amended): for occurrences on distinct lines the claim holds: an
update whose outdated set contains only the first occurrence rewrites
only the anchored line — substituting the operator run found in the file
onto the new version — and every other line (in particular the line
holding the second occurrence) is byte-identical. -/
theorem claim_C5_first_occurrence_only :
    ∀ (content : String) (dep : OutdatedDependency) (g1 old : List Char),
      dep.dtype ≠ DependencyType.PeerDependencies →
      1 ≤ dep.lineNumber → dep.lineNumber ≤ ((splitLines content).length : Int) →
      npmFindMatch dep.name.data
        ((splitLines content).getD (dep.lineNumber - 1).toNat "").data = some (g1, old) →
      npm.UpdateDependencies content [dep] false =
        .ok (joinLines ((splitLines content).set (dep.lineNumber - 1).toNat
          ⟨npmReplaceAll dep.name.data
            (GetVersionPrefix ⟨old⟩ ++ dep.latestVersion).data
            ((splitLines content).getD (dep.lineNumber - 1).toNat "").data⟩)) ∧
      (∀ i, i ≠ (dep.lineNumber - 1).toNat →
        ((splitLines content).set (dep.lineNumber - 1).toNat
          ⟨npmReplaceAll dep.name.data
            (GetVersionPrefix ⟨old⟩ ++ dep.latestVersion).data
            ((splitLines content).getD (dep.lineNumber - 1).toNat "").data⟩).getD i "" =
        (splitLines content).getD i "") := by
  intro content dep g1 old hdt h1 h2 hfind
  constructor
  · unfold npm.UpdateDependencies
    have hfd : npm.filterDeps [dep] false = [dep] := by
      simp [npm.filterDeps, hdt]
    rw [hfd, if_neg (by simp)]
    show (match npm.updateLines (splitLines content) [dep] with
      | .error e => (.error e : Except String String)
      | .ok ls => .ok (joinLines ls)) = _
    have hno : ¬(dep.lineNumber < 1 ∨ dep.lineNumber > ((splitLines content).length : Int)) := by
      omega
    rw [npm_updateLines_cons]
    simp only [npm.updateOne, if_neg hno, hfind]
    rfl
  · intro i hi
    exact getD_set_ne _ _ _ _ _ hi

/-! ## Civil time: Go `time.Format`/`time.Parse` with the RFC3339 layout

Modelled from the Go standard library at the granularity the cache uses:
instants are whole seconds since the Unix epoch in UTC, formatted as
`YYYY-MM-DDTHH:MM:SSZ` and parsed back; sub-second precision, offsets
other than `Z` and years outside 1970–9999 are outside the model. -/

/-- Gregorian leap-year rule. -/
def isLeap (y : Nat) : Bool :=
  (y % 4 = 0 && y % 100 ≠ 0) || y % 400 = 0

/-- Days in a calendar year. -/
def daysInYear (y : Nat) : Nat :=
  if isLeap y then 366 else 365

/-- Days in a calendar month (1–12; 0 elsewhere). -/
def monthLen (leap : Bool) : Nat → Nat
  | 1 => 31
  | 2 => if leap then 29 else 28
  | 3 => 31
  | 4 => 30
  | 5 => 31
  | 6 => 30
  | 7 => 31
  | 8 => 31
  | 9 => 30
  | 10 => 31
  | 11 => 30
  | 12 => 31
  | _ => 0

/-- Days from 1970-01-01 to the start of year `1970 + k`. -/
def daysFromEpochToYear : Nat → Nat
  | 0 => 0
  | k + 1 => daysFromEpochToYear k + daysInYear (1970 + k)

/-- Days from 1970-01-01 to the start of year `y` (for `y ≥ 1970`). -/
def daysToYear (y : Nat) : Nat :=
  daysFromEpochToYear (y - 1970)

/-- Days from January 1 to the start of month `m` within one year. -/
def daysToMonth (leap : Bool) : Nat → Nat
  | 0 => 0
  | m + 1 => daysToMonth leap m + monthLen leap m

/-- Resolve a day count since the epoch into `(year, day-of-year)`;
the fuel (one per crossed year) keeps the recursion structural. -/
def resolveYearF : Nat → Nat → Nat → Nat × Nat
  | 0, y, d => (y, d)
  | fuel + 1, y, d =>
    if d < daysInYear y then (y, d) else resolveYearF fuel (y + 1) (d - daysInYear y)

/-- Resolve a day-of-year into `(month, day-of-month-minus-1)`. -/
def resolveMonthF : Nat → Bool → Nat → Nat → Nat × Nat
  | 0, _, m, d => (m, d)
  | fuel + 1, leap, m, d =>
    if m ≥ 12 then (m, d)
    else if d < monthLen leap m then (m, d)
    else resolveMonthF fuel leap (m + 1) (d - monthLen leap m)

/-- The decimal digit character for `n < 10`. -/
def digitChar (n : Nat) : Char :=
  Char.ofNat (48 + n)

/-- Two-digit zero-padded decimal. -/
def pad2 (n : Nat) : List Char :=
  [digitChar (n / 10 % 10), digitChar (n % 10)]

/-- Four-digit zero-padded decimal. -/
def pad4 (n : Nat) : List Char :=
  [digitChar (n / 1000 % 10), digitChar (n / 100 % 10), digitChar (n / 10 % 10),
   digitChar (n % 10)]

/-- Go `t.Format(time.RFC3339)` for a whole-second UTC instant. -/
def formatRFC3339 (t : Nat) : String :=
  let days := t / 86400
  let secs := t % 86400
  match resolveYearF (days + 1) 1970 days with
  | (y, doy) =>
    match resolveMonthF 12 (isLeap y) 1 doy with
    | (m, dom) =>
      ⟨pad4 y ++ '-' :: pad2 m ++ '-' :: pad2 (dom + 1) ++ 'T' :: pad2 (secs / 3600) ++
        ':' :: pad2 (secs % 3600 / 60) ++ ':' :: pad2 (secs % 60) ++ ['Z']⟩

/-- Numeric value of a digit character. -/
def digitVal (c : Char) : Nat :=
  c.toNat - 48

/-- Go `time.Parse(time.RFC3339, s)` restricted to the `Z`-offset layout
the cache writes: fixed-width fields, digit and range validation, result
as whole seconds since the epoch. -/
def parseRFC3339 (s : String) : Option Nat :=
  match s.data with
  | [y1, y2, y3, y4, '-', m1, m2, '-', d1, d2, 'T', h1, h2, ':', mi1, mi2, ':', s1, s2, 'Z'] =>
    if [y1, y2, y3, y4, m1, m2, d1, d2, h1, h2, mi1, mi2, s1, s2].all Char.isDigit then
      let y := digitVal y1 * 1000 + digitVal y2 * 100 + digitVal y3 * 10 + digitVal y4
      let m := digitVal m1 * 10 + digitVal m2
      let d := digitVal d1 * 10 + digitVal d2
      let hh := digitVal h1 * 10 + digitVal h2
      let mi := digitVal mi1 * 10 + digitVal mi2
      let ss := digitVal s1 * 10 + digitVal s2
      if 1970 ≤ y ∧ 1 ≤ m ∧ m ≤ 12 ∧ 1 ≤ d ∧ d ≤ monthLen (isLeap y) m ∧
          hh < 24 ∧ mi < 60 ∧ ss < 60 then
        some ((daysToYear y + daysToMonth (isLeap y) m + (d - 1)) * 86400 +
          hh * 3600 + mi * 60 + ss)
      else none
    else none
  | _ => none

/-! ## Round-trip of the RFC3339 model (years 1970–2399) -/

theorem daysInYear_bounds (y : Nat) : 365 ≤ daysInYear y ∧ daysInYear y ≤ 366 := by
  unfold daysInYear
  split <;> omega

theorem daysToYear_succ (y : Nat) (h : 1970 ≤ y) :
    daysToYear (y + 1) = daysToYear y + daysInYear y := by
  unfold daysToYear
  rw [show y + 1 - 1970 = (y - 1970) + 1 by omega]
  show daysFromEpochToYear (y - 1970) + daysInYear (1970 + (y - 1970)) = _
  rw [show 1970 + (y - 1970) = y by omega]

theorem daysFromEpochToYear_mono {k1 k2 : Nat} (h : k1 ≤ k2) :
    daysFromEpochToYear k1 ≤ daysFromEpochToYear k2 := by
  induction k2 with
  | zero =>
    have hk : k1 = 0 := by omega
    simp [hk]
  | succ k ih =>
    rcases Nat.lt_or_ge k1 (k + 1) with hlt | hge
    · have h2 := ih (by omega)
      have h3 : daysFromEpochToYear (k + 1) =
          daysFromEpochToYear k + daysInYear (1970 + k) := rfl
      omega
    · have hk : k1 = k + 1 := by omega
      simp [hk]

theorem daysToYear_mono {y1 y2 : Nat} (h : y1 ≤ y2) : daysToYear y1 ≤ daysToYear y2 :=
  daysFromEpochToYear_mono (by omega)

theorem daysToYear_2400 : daysToYear 2400 = 157054 := by decide

theorem resolveYearF_spec :
    ∀ (fuel y d y2 doy : Nat), 1970 ≤ y → d < 365 * fuel →
      resolveYearF fuel y d = (y2, doy) →
      1970 ≤ y2 ∧ y ≤ y2 ∧ doy < daysInYear y2 ∧
      daysToYear y2 + doy = daysToYear y + d := by
  intro fuel
  induction fuel with
  | zero =>
    intro y d y2 doy hy hd
    omega
  | succ fuel ih =>
    intro y d y2 doy hy hd heq
    unfold resolveYearF at heq
    split at heq
    · rename_i hlt
      injection heq with h1 h2
      subst h1
      subst h2
      exact ⟨hy, Nat.le_refl y, hlt, rfl⟩
    · rename_i hge
      have h365 := (daysInYear_bounds y).1
      have hrec := ih (y + 1) (d - daysInYear y) y2 doy (by omega) (by omega) heq
      have hs := daysToYear_succ y hy
      refine ⟨hrec.1, by omega, hrec.2.2.1, by omega⟩

theorem daysToMonth_12 (leap : Bool) :
    daysToMonth leap 12 = if leap then 335 else 334 := by
  cases leap <;> decide

theorem daysToMonth_succ (leap : Bool) (m : Nat) :
    daysToMonth leap (m + 1) = daysToMonth leap m + monthLen leap m := rfl

theorem monthLen_12 (leap : Bool) : monthLen leap 12 = 31 := by
  cases leap <;> rfl

theorem resolveMonthF_spec :
    ∀ (fuel : Nat) (leap : Bool) (m d m2 dom : Nat),
      1 ≤ m → m ≤ 12 → 12 - m ≤ fuel →
      daysToMonth leap m + d < (if leap then 366 else 365) →
      resolveMonthF fuel leap m d = (m2, dom) →
      1 ≤ m2 ∧ m2 ≤ 12 ∧ dom < monthLen leap m2 ∧
      daysToMonth leap m2 + dom = daysToMonth leap m + d := by
  intro fuel
  induction fuel with
  | zero =>
    intro leap m d m2 dom h1 h12 hf hd heq
    have hm : m = 12 := by omega
    subst hm
    unfold resolveMonthF at heq
    injection heq with he1 he2
    subst he1
    subst he2
    have h334 := daysToMonth_12 leap
    rw [monthLen_12]
    cases leap <;> simp_all <;> omega
  | succ fuel ih =>
    intro leap m d m2 dom h1 h12 hf hd heq
    unfold resolveMonthF at heq
    split at heq
    · rename_i hge12
      have hm : m = 12 := by omega
      subst hm
      injection heq with he1 he2
      subst he1
      subst he2
      have h334 := daysToMonth_12 leap
      rw [monthLen_12]
      cases leap <;> simp_all <;> omega
    · rename_i hlt12
      split at heq
      · rename_i hlt
        injection heq with he1 he2
        subst he1
        subst he2
        exact ⟨h1, h12, hlt, rfl⟩
      · rename_i hge
        have hsucc := daysToMonth_succ leap m
        have hrec := ih leap (m + 1) (d - monthLen leap m) m2 dom
          (by omega) (by omega) (by omega) (by omega) heq
        exact ⟨hrec.1, hrec.2.1, hrec.2.2.1, by omega⟩

theorem digitChar_mod_isDigit (x : Nat) : (digitChar (x % 10)).isDigit = true := by
  have h : x % 10 < 10 := Nat.mod_lt x (by omega)
  interval_cases h2 : x % 10 <;> decide

theorem digitVal_digitChar_mod (x : Nat) : digitVal (digitChar (x % 10)) = x % 10 := by
  have h : x % 10 < 10 := Nat.mod_lt x (by omega)
  interval_cases h2 : x % 10 <;> decide

theorem two_digit_recon (a : Nat) (h : a < 100) : a / 10 % 10 * 10 + a % 10 = a := by omega

theorem four_digit_recon (a : Nat) (h : a < 10000) :
    a / 1000 % 10 * 1000 + a / 100 % 10 * 100 + a / 10 % 10 * 10 + a % 10 = a := by omega

theorem secs_decomp (a : Nat) :
    a / 3600 * 3600 + a % 3600 / 60 * 60 + a % 60 = a := by omega

theorem hour_lt (t : Nat) : t % 86400 / 3600 < 24 := by omega

theorem minute_lt (t : Nat) : t % 86400 % 3600 / 60 < 60 := by omega

theorem sec_lt (t : Nat) : t % 86400 % 60 < 60 := by omega

/-- The parse of the format: the round trip at whole-second precision
for instants up to 2399-12-31T23:59:59Z. -/
theorem parseRFC3339_formatRFC3339 {t : Nat} (ht : t ≤ 13569465599) :
    parseRFC3339 (formatRFC3339 t) = some t := by
  cases hry : resolveYearF (t / 86400 + 1) 1970 (t / 86400) with
  | mk y doy =>
  obtain ⟨hy1970, _, hdoy, hcum⟩ :=
    resolveYearF_spec (t / 86400 + 1) 1970 (t / 86400) y doy (by omega) (by omega) hry
  have hzero : daysToYear 1970 = 0 := rfl
  have hy2400 : y ≤ 2399 := by
    by_contra hgt
    have h1 : daysToYear 2400 ≤ daysToYear y := daysToYear_mono (by omega)
    rw [daysToYear_2400] at h1
    omega
  cases hrm : resolveMonthF 12 (isLeap y) 1 doy with
  | mk m dom =>
  have hdm : daysToMonth (isLeap y) 1 + doy < (if isLeap y then 366 else 365) := by
    have c1 : daysToMonth false 1 = 0 := rfl
    have c2 : daysToMonth true 1 = 0 := rfl
    unfold daysInYear at hdoy
    cases hL : isLeap y <;> simp_all
  obtain ⟨hm1, hm12, hdom, hcumM⟩ :=
    resolveMonthF_spec 12 (isLeap y) 1 doy m dom (by omega) (by omega) (by omega) hdm hrm
  simp only [formatRFC3339, hry, hrm, pad4, pad2]
  simp only [parseRFC3339, List.cons_append, List.nil_append, List.all_cons, List.all_nil,
    digitChar_mod_isDigit, Bool.and_self, Bool.and_true, Bool.true_and, if_true,
    digitVal_digitChar_mod]
  have hmlen : monthLen (isLeap y) m ≤ 31 := by
    have hh : ∀ (b : Bool) (mm : Nat), monthLen b mm ≤ 31 := by
      intro b mm
      unfold monthLen
      split <;> first | omega | (split <;> omega)
    exact hh (isLeap y) m
  rw [four_digit_recon y (by omega), two_digit_recon m (by omega),
      two_digit_recon (dom + 1) (by omega),
      two_digit_recon (t % 86400 / 3600) (by have := hour_lt t; omega),
      two_digit_recon (t % 86400 % 3600 / 60) (by have := minute_lt t; omega),
      two_digit_recon (t % 86400 % 60) (by have := sec_lt t; omega)]
  rw [if_pos ⟨hy1970, hm1, hm12, by omega, by omega, hour_lt t, minute_lt t, sec_lt t⟩]
  rw [Option.some.injEq]
  have h0 : daysToMonth (isLeap y) 1 = 0 := by cases isLeap y <;> rfl
  have hsd := secs_decomp (t % 86400)
  omega

/-! ## Cache persistence (SaveEntries / LoadEntries) -/

/-- Go `strings.TrimSpace` (ASCII/Latin-1 whitespace; see `isGoSpace`). -/
def goTrimSpace (s : String) : String :=
  ⟨((s.data.dropWhile isGoSpace).reverse.dropWhile isGoSpace).reverse⟩

/-- The persisted record of one entry: seven `|`-joined fields with the
RFC3339-formatted expiry last (`SaveEntries` loop body). -/
def entryLine (e : CacheEntry) : List Char :=
  goJoin '|' [e.packageName.data, e.ptype.data, e.currentVersion.data, e.constraint.data,
    e.absoluteLatest.data, e.constraintLatest.data, (formatRFC3339 e.expiry).data]

/-- The file content written by `SaveEntries`: one line plus `\n` per
entry, in store order. -/
def saveLines : Cache → List Char
  | [] => []
  | p :: rest => entryLine p.2 ++ '\n' :: saveLines rest

/-- Go `Cache.SaveEntries` as a pure function to the written file text. -/
def Cache.SaveEntries (c : Cache) : String :=
  ⟨saveLines c⟩

/-- One line of `LoadEntries`: split on `|`, require exactly 7 fields,
parse the RFC3339 expiry, rebuild the entry and its key. -/
def parseCacheLine (line : List Char) : Option (String × CacheEntry) :=
  let parts := goSplit '|' line
  if parts.length ≠ 7 then none
  else
    match parseRFC3339 ⟨parts.getD 6 []⟩ with
    | none => none
    | some expiry =>
      let entry : CacheEntry :=
        ⟨⟨parts.getD 0 []⟩, ⟨parts.getD 1 []⟩, ⟨parts.getD 2 []⟩, ⟨parts.getD 3 []⟩,
         ⟨parts.getD 4 []⟩, ⟨parts.getD 5 []⟩, expiry⟩
      some (CacheEntry.key entry, entry)

/-- The scanner loop of `LoadEntries`: trim each line, skip empties and
malformed records, store the rest under their regenerated keys. -/
def loadLinesAux : List (List Char) → Cache → Cache
  | [], acc => acc
  | line :: rest, acc =>
    let trimmed := goTrimSpace ⟨line⟩
    if trimmed = "" then loadLinesAux rest acc
    else
      match parseCacheLine trimmed.data with
      | none => loadLinesAux rest acc
      | some (key, entry) => loadLinesAux rest (Cache.setKey acc key entry)

/-- Go `Cache.LoadEntries` as a pure function of the file content
(the loaded map replaces the previous in-memory entries). -/
def Cache.LoadEntries (content : String) : Cache :=
  loadLinesAux (goSplit '\n' content.data) []

/-- Field well-formedness for exact persistence: ASCII characters, none
of which is the field separator `|`, a line break or a carriage return
(Go's scanner and `Split` would otherwise cut the record differently
than the model). -/
def cleanList (l : List Char) : Prop :=
  ∀ c ∈ l, c.val < 128 ∧ c ≠ '|' ∧ c ≠ '\n' ∧ c ≠ '\r'

instance (l : List Char) : Decidable (cleanList l) := by
  unfold cleanList
  infer_instance

/-- A cache entry whose persisted record round-trips exactly: clean
fields, a package name not starting with whitespace (`TrimSpace` would
eat it), and an expiry inside the modelled RFC3339 range. -/
def cleanEntry (e : CacheEntry) : Prop :=
  cleanList e.packageName.data ∧ cleanList e.ptype.data ∧ cleanList e.currentVersion.data ∧
  cleanList e.constraint.data ∧ cleanList e.absoluteLatest.data ∧
  cleanList e.constraintLatest.data ∧
  (∀ c, e.packageName.data.head? = some c → isGoSpace c = false) ∧
  e.expiry ≤ 13569465599

instance (e : CacheEntry) : Decidable (cleanEntry e) := by
  unfold cleanEntry
  infer_instance

/-! ## Lemmas for the persistence round trip -/

theorem goSplit_of_not_mem {sep : Char} {l : List Char} (h : sep ∉ l) :
    goSplit sep l = [l] := by
  induction l with
  | nil => rfl
  | cons c rest ih =>
    unfold goSplit
    rw [if_neg (by intro hc; exact h (hc ▸ List.mem_cons_self c rest))]
    rw [ih fun hm => h (List.mem_cons_of_mem c hm)]

theorem goSplit_cons_eq {sep : Char} (rest : List Char) :
    goSplit sep (sep :: rest) = [] :: goSplit sep rest := by
  simp [goSplit]

theorem goSplit_cons_ne {sep c : Char} (rest : List Char) (h : ¬c = sep) :
    goSplit sep (c :: rest) =
      match goSplit sep rest with
      | [] => [[c]]
      | g :: gs => (c :: g) :: gs := by
  simp only [goSplit]
  rw [if_neg h]

theorem goSplit_append_cons {sep : Char} {xs ys : List Char} (h : sep ∉ xs) :
    goSplit sep (xs ++ sep :: ys) = xs :: goSplit sep ys := by
  induction xs with
  | nil => exact goSplit_cons_eq ys
  | cons a as ih =>
    rw [List.cons_append,
      goSplit_cons_ne (as ++ sep :: ys) (by intro hc; exact h (hc ▸ List.mem_cons_self a as)),
      ih fun hm => h (List.mem_cons_of_mem a hm)]

theorem goSplit_goJoin {sep : Char} :
    ∀ parts : List (List Char), parts ≠ [] → (∀ p ∈ parts, sep ∉ p) →
      goSplit sep (goJoin sep parts) = parts := by
  intro parts
  induction parts with
  | nil => intro h; exact absurd rfl h
  | cons x xs ih =>
    intro _ hsep
    cases xs with
    | nil =>
      show goSplit sep (goJoin sep [x]) = [x]
      exact goSplit_of_not_mem (hsep x (by simp))
    | cons y rest =>
      show goSplit sep (x ++ sep :: goJoin sep (y :: rest)) = x :: y :: rest
      rw [goSplit_append_cons (hsep x (by simp))]
      rw [ih (by simp) fun p hp => hsep p (List.mem_cons_of_mem x hp)]

theorem mem_goJoin {sep : Char} {c : Char} :
    ∀ {parts : List (List Char)}, c ∈ goJoin sep parts →
      c = sep ∨ ∃ p ∈ parts, c ∈ p := by
  intro parts
  induction parts with
  | nil => intro h; simp [goJoin] at h
  | cons x xs ih =>
    intro h
    cases xs with
    | nil =>
      exact Or.inr ⟨x, by simp, h⟩
    | cons y rest =>
      rw [show goJoin sep (x :: y :: rest) = x ++ sep :: goJoin sep (y :: rest) from rfl] at h
      rcases List.mem_append.mp h with hx | hx
      · exact Or.inr ⟨x, by simp, hx⟩
      · rcases List.mem_cons.mp hx with hc | hc
        · exact Or.inl hc
        · rcases ih hc with hs | ⟨p, hp, hcp⟩
          · exact Or.inl hs
          · exact Or.inr ⟨p, List.mem_cons_of_mem x hp, hcp⟩

theorem digitChar_mod_mem (x : Nat) :
    digitChar (x % 10) ∈ ['0', '1', '2', '3', '4', '5', '6', '7', '8', '9'] := by
  have h : x % 10 < 10 := Nat.mod_lt x (by omega)
  interval_cases h2 : x % 10 <;> decide

theorem mem_pad2 {c : Char} {n : Nat} (h : c ∈ pad2 n) :
    c ∈ ['0', '1', '2', '3', '4', '5', '6', '7', '8', '9'] := by
  rcases List.mem_cons.mp h with rfl | h2
  · exact digitChar_mod_mem _
  · rcases List.mem_cons.mp h2 with rfl | h3
    · exact digitChar_mod_mem _
    · simp at h3

theorem mem_pad4 {c : Char} {n : Nat} (h : c ∈ pad4 n) :
    c ∈ ['0', '1', '2', '3', '4', '5', '6', '7', '8', '9'] := by
  rcases List.mem_cons.mp h with rfl | h2
  · exact digitChar_mod_mem _
  · rcases List.mem_cons.mp h2 with rfl | h3
    · exact digitChar_mod_mem _
    · rcases List.mem_cons.mp h3 with rfl | h4
      · exact digitChar_mod_mem _
      · rcases List.mem_cons.mp h4 with rfl | h5
        · exact digitChar_mod_mem _
        · simp at h5

/-- Every character of a formatted RFC3339 instant is a digit or one of
`-`, `:`, `T`, `Z`. -/
theorem format_chars (t : Nat) :
    ∀ c ∈ (formatRFC3339 t).data,
      c ∈ (['0', '1', '2', '3', '4', '5', '6', '7', '8', '9'] ++ ['-', ':', 'T', 'Z']) := by
  unfold formatRFC3339
  cases resolveYearF (t / 86400 + 1) 1970 (t / 86400) with
  | mk y doy =>
    cases resolveMonthF 12 (isLeap y) 1 doy with
    | mk m dom =>
      intro c hc
      rcases List.mem_append.mp hc with hc | h
      · rcases List.mem_append.mp hc with hc | h
        · rcases List.mem_append.mp hc with hc | h
          · rcases List.mem_append.mp hc with hc | h
            · rcases List.mem_append.mp hc with hc | h
              · rcases List.mem_append.mp hc with hc | h
                · exact List.mem_append_left _ (mem_pad4 hc)
                · rcases List.mem_cons.mp h with rfl | h2
                  · exact List.mem_append_right _ (by decide)
                  · exact List.mem_append_left _ (mem_pad2 h2)
              · rcases List.mem_cons.mp h with rfl | h2
                · exact List.mem_append_right _ (by decide)
                · exact List.mem_append_left _ (mem_pad2 h2)
            · rcases List.mem_cons.mp h with rfl | h2
              · exact List.mem_append_right _ (by decide)
              · exact List.mem_append_left _ (mem_pad2 h2)
          · rcases List.mem_cons.mp h with rfl | h2
            · exact List.mem_append_right _ (by decide)
            · exact List.mem_append_left _ (mem_pad2 h2)
        · rcases List.mem_cons.mp h with rfl | h2
          · exact List.mem_append_right _ (by decide)
          · exact List.mem_append_left _ (mem_pad2 h2)
      · rcases List.mem_cons.mp h with rfl | h2
        · exact List.mem_append_right _ (by decide)
        · simp at h2

theorem format_getLast (t : Nat) : (formatRFC3339 t).data.getLast? = some 'Z' := by
  unfold formatRFC3339
  cases resolveYearF (t / 86400 + 1) 1970 (t / 86400) with
  | mk y doy =>
    cases resolveMonthF 12 (isLeap y) 1 doy with
    | mk m dom => rfl

theorem format_head_digit (t : Nat) :
    ∀ c, (formatRFC3339 t).data.head? = some c →
      c ∈ ['0', '1', '2', '3', '4', '5', '6', '7', '8', '9'] := by
  unfold formatRFC3339
  cases resolveYearF (t / 86400 + 1) 1970 (t / 86400) with
  | mk y doy =>
    cases resolveMonthF 12 (isLeap y) 1 doy with
    | mk m dom =>
      intro c hc
      simp only [pad4, pad2, List.cons_append, List.nil_append, List.head?_cons,
        Option.some.injEq] at hc
      exact hc ▸ digitChar_mod_mem _

/-- The 14 characters a formatted instant can contain are not separators,
line breaks or whitespace. -/
theorem format_chars_plain :
    ∀ c ∈ (['0', '1', '2', '3', '4', '5', '6', '7', '8', '9'] ++ ['-', ':', 'T', 'Z']),
      c ≠ '|' ∧ c ≠ '\n' ∧ c ≠ '\r' ∧ isGoSpace c = false := by
  decide

theorem goTrimSpace_noop {l : List Char}
    (h1 : ∀ c, l.head? = some c → isGoSpace c = false)
    (h2 : ∀ c, l.getLast? = some c → isGoSpace c = false) :
    goTrimSpace ⟨l⟩ = ⟨l⟩ := by
  unfold goTrimSpace
  congr 1
  cases l with
  | nil => rfl
  | cons a rest =>
    rw [List.dropWhile_cons, h1 a rfl]
    simp only [Bool.false_eq_true, if_false]
    cases hrev : (a :: rest).reverse with
    | nil => simp at hrev
    | cons b tl =>
      have hb : (a :: rest).getLast? = some b := by
        rw [← List.head?_reverse, hrev]
        rfl
      rw [List.dropWhile_cons, h2 b hb]
      simp only [Bool.false_eq_true, if_false]
      rw [← hrev, List.reverse_reverse]

theorem getLast?_append_right :
    ∀ (l1 l2 : List Char), l2 ≠ [] → (l1 ++ l2).getLast? = l2.getLast? := by
  intro l1
  induction l1 with
  | nil => simp
  | cons a as ih =>
    intro l2 h
    rw [List.cons_append]
    have h2 : as ++ l2 ≠ [] := by
      intro hh
      rcases List.append_eq_nil.mp hh with ⟨_, h3⟩
      exact h h3
    cases hal : as ++ l2 with
    | nil => exact absurd hal h2
    | cons b t =>
      rw [List.getLast?_cons_cons, ← hal, ih l2 h]

theorem format_ne_nil (t : Nat) : (formatRFC3339 t).data ≠ [] := by
  intro h
  have := format_getLast t
  rw [h] at this
  simp at this

/-- The persisted record of a clean entry starts with a non-space
character. -/
theorem entryLine_head (e : CacheEntry)
    (hhead : ∀ c, e.packageName.data.head? = some c → isGoSpace c = false) :
    ∀ c, (entryLine e).head? = some c → isGoSpace c = false := by
  intro c hc
  unfold entryLine at hc
  cases hpd : e.packageName.data with
  | nil =>
    rw [show goJoin '|' [e.packageName.data, e.ptype.data, e.currentVersion.data,
        e.constraint.data, e.absoluteLatest.data, e.constraintLatest.data,
        (formatRFC3339 e.expiry).data] = e.packageName.data ++ '|' :: goJoin '|'
        [e.ptype.data, e.currentVersion.data, e.constraint.data, e.absoluteLatest.data,
         e.constraintLatest.data, (formatRFC3339 e.expiry).data] from rfl, hpd] at hc
    simp only [List.nil_append, List.head?_cons, Option.some.injEq] at hc
    subst hc
    decide
  | cons a tl =>
    rw [show goJoin '|' [e.packageName.data, e.ptype.data, e.currentVersion.data,
        e.constraint.data, e.absoluteLatest.data, e.constraintLatest.data,
        (formatRFC3339 e.expiry).data] = e.packageName.data ++ '|' :: goJoin '|'
        [e.ptype.data, e.currentVersion.data, e.constraint.data, e.absoluteLatest.data,
         e.constraintLatest.data, (formatRFC3339 e.expiry).data] from rfl, hpd] at hc
    simp only [List.cons_append, List.head?_cons, Option.some.injEq] at hc
    subst hc
    exact hhead a (by rw [hpd]; rfl)

theorem getLast?_cons_of_ne_nil {a : Char} {l : List Char} (h : l ≠ []) :
    (a :: l).getLast? = l.getLast? := by
  cases l with
  | nil => exact absurd rfl h
  | cons b t => exact List.getLast?_cons_cons ..

theorem getLast?_field_append {f rest : List Char} (h : rest ≠ []) :
    (f ++ '|' :: rest).getLast? = rest.getLast? := by
  rw [getLast?_append_right _ _ (by simp), getLast?_cons_of_ne_nil h]

/-- The persisted record of any entry ends in the `Z` of its RFC3339
expiry. -/
theorem entryLine_getLast (e : CacheEntry) :
    (entryLine e).getLast? = some 'Z' := by
  unfold entryLine
  have hstep : ∀ (x : List Char) (y : List Char) (ys : List (List Char)),
      goJoin '|' (x :: y :: ys) = x ++ '|' :: goJoin '|' (y :: ys) := by
    intro x y ys
    rfl
  rw [hstep, hstep, hstep, hstep, hstep, hstep]
  have h6 : goJoin '|' [(formatRFC3339 e.expiry).data] ≠ [] := by
    show (formatRFC3339 e.expiry).data ≠ []
    exact format_ne_nil e.expiry
  rw [getLast?_field_append (by simp), getLast?_field_append (by simp),
    getLast?_field_append (by simp), getLast?_field_append (by simp),
    getLast?_field_append (by simp), getLast?_field_append h6]
  show (formatRFC3339 e.expiry).data.getLast? = some 'Z'
  exact format_getLast e.expiry

theorem format_field_clean (t : Nat) :
    ∀ c ∈ (formatRFC3339 t).data, c ≠ '|' ∧ c ≠ '\n' ∧ c ≠ '\r' := by
  intro c hc
  have h := format_chars_plain c (format_chars t c hc)
  exact ⟨h.1, h.2.1, h.2.2.1⟩

theorem cleanList_not_mem {l : List Char} (h : cleanList l) :
    '|' ∉ l ∧ '\n' ∉ l ∧ '\r' ∉ l :=
  ⟨fun hc => (h _ hc).2.1 rfl, fun hc => (h _ hc).2.2.1 rfl, fun hc => (h _ hc).2.2.2 rfl⟩

theorem entryLine_field_sep_free {e : CacheEntry} (he : cleanEntry e) :
    ∀ p ∈ [e.packageName.data, e.ptype.data, e.currentVersion.data, e.constraint.data,
           e.absoluteLatest.data, e.constraintLatest.data, (formatRFC3339 e.expiry).data],
      '|' ∉ p ∧ '\n' ∉ p := by
  obtain ⟨h1, h2, h3, h4, h5, h6, _, _⟩ := he
  intro p hp
  simp only [List.mem_cons, List.not_mem_nil, or_false] at hp
  rcases hp with rfl | rfl | rfl | rfl | rfl | rfl | rfl
  · exact ⟨(cleanList_not_mem h1).1, (cleanList_not_mem h1).2.1⟩
  · exact ⟨(cleanList_not_mem h2).1, (cleanList_not_mem h2).2.1⟩
  · exact ⟨(cleanList_not_mem h3).1, (cleanList_not_mem h3).2.1⟩
  · exact ⟨(cleanList_not_mem h4).1, (cleanList_not_mem h4).2.1⟩
  · exact ⟨(cleanList_not_mem h5).1, (cleanList_not_mem h5).2.1⟩
  · exact ⟨(cleanList_not_mem h6).1, (cleanList_not_mem h6).2.1⟩
  · exact ⟨fun hc => (format_field_clean _ _ hc).1 rfl,
           fun hc => (format_field_clean _ _ hc).2.1 rfl⟩

/-- Splitting a clean entry's record on the field separator recovers the
seven fields exactly. -/
theorem goSplit_entryLine {e : CacheEntry} (he : cleanEntry e) :
    goSplit '|' (entryLine e) =
      [e.packageName.data, e.ptype.data, e.currentVersion.data, e.constraint.data,
       e.absoluteLatest.data, e.constraintLatest.data, (formatRFC3339 e.expiry).data] :=
  goSplit_goJoin _ (by simp) fun p hp => (entryLine_field_sep_free he p hp).1

/-- The loader's record parser inverts the saver's record writer on clean
entries, rebuilding both the entry and its cache key. -/
theorem parseCacheLine_entryLine {e : CacheEntry} (he : cleanEntry e) :
    parseCacheLine (entryLine e) = some (CacheEntry.key e, e) := by
  have hsplit := goSplit_entryLine he
  simp only [parseCacheLine]
  rw [hsplit, if_neg (by simp)]
  have hp : parseRFC3339 (⟨([e.packageName.data, e.ptype.data, e.currentVersion.data,
      e.constraint.data, e.absoluteLatest.data, e.constraintLatest.data,
      (formatRFC3339 e.expiry).data].getD 6 [])⟩ : String) = some e.expiry :=
    parseRFC3339_formatRFC3339 he.2.2.2.2.2.2.2
  rw [hp]
  rfl

theorem entryLine_no_newline {e : CacheEntry} (he : cleanEntry e) :
    '\n' ∉ entryLine e := by
  intro h
  rcases mem_goJoin h with h | ⟨q, hq, hcq⟩
  · exact absurd h (by decide)
  · exact (entryLine_field_sep_free he q hq).2 hcq

/-- `TrimSpace` leaves the persisted record of a clean entry untouched:
it starts with its non-space package name and ends in `Z`. -/
theorem goTrimSpace_entryLine {e : CacheEntry} (he : cleanEntry e) :
    goTrimSpace ⟨entryLine e⟩ = ⟨entryLine e⟩ := by
  apply goTrimSpace_noop
  · exact entryLine_head e he.2.2.2.2.2.2.1
  · intro c hc
    rw [entryLine_getLast e] at hc
    injection hc with h
    subst h
    decide

/-- The loader's scan step on a clean entry's record: the line survives
trimming, parses, and is stored under its regenerated key. -/
theorem loadLinesAux_cons_entry {e : CacheEntry} (he : cleanEntry e)
    (rest : List (List Char)) (acc : Cache) :
    loadLinesAux (entryLine e :: rest) acc =
      loadLinesAux rest (Cache.setKey acc (CacheEntry.key e) e) := by
  have htrim : goTrimSpace ⟨entryLine e⟩ = ⟨entryLine e⟩ := goTrimSpace_entryLine he
  have hne : (⟨entryLine e⟩ : String) ≠ "" := by
    intro h0
    have h2 := entryLine_getLast e
    rw [show entryLine e = ([] : List Char) from congrArg String.data h0] at h2
    simp at h2
  simp only [loadLinesAux]
  rw [htrim, if_neg hne]
  have hparse : parseCacheLine (⟨entryLine e⟩ : String).data = some (CacheEntry.key e, e) :=
    parseCacheLine_entryLine he
  rw [hparse]

/-- The fold step `LoadEntries` performs per surviving record. -/
def setStep (a : Cache) (p : String × CacheEntry) : Cache :=
  Cache.setKey a p.1 p.2

theorem setStep_eq (a : Cache) (k : String) (v : CacheEntry) :
    setStep a (k, v) = Cache.setKey a k v := rfl

theorem find_setKey_ne {a : Cache} {kw k : String} {v : CacheEntry} (h : kw ≠ k) :
    Cache.find (Cache.setKey a kw v) k = Cache.find a k := by
  induction a with
  | nil => simp [Cache.setKey, Cache.find, h]
  | cons p rest ih =>
    obtain ⟨pk, pv⟩ := p
    by_cases hp : pk = kw
    · subst hp
      rw [show Cache.setKey ((pk, pv) :: rest) pk v = (pk, v) :: rest from by
        simp [Cache.setKey]]
      show (if pk = k then some v else Cache.find rest k) =
        (if pk = k then some pv else Cache.find rest k)
      rw [if_neg h, if_neg h]
    · rw [show Cache.setKey ((pk, pv) :: rest) kw v = (pk, pv) :: Cache.setKey rest kw v from by
        simp [Cache.setKey, hp]]
      show (if pk = k then some pv else Cache.find (Cache.setKey rest kw v) k) =
        (if pk = k then some pv else Cache.find rest k)
      rw [ih]

theorem find_foldl_setKey_absent :
    ∀ (l : List (String × CacheEntry)) (acc : Cache) (key : String),
      key ∉ l.map Prod.fst →
      Cache.find (l.foldl setStep acc) key = Cache.find acc key := by
  intro l
  induction l with
  | nil => intro acc key _; rfl
  | cons p rest ih =>
    intro acc key h
    simp only [List.map_cons, List.mem_cons, not_or] at h
    rw [List.foldl_cons, ih _ _ h.2]
    exact find_setKey_ne fun hh => h.1 hh.symm

/-- Folding the loader's store step over a duplicate-free association list
preserves every lookup the list itself answers. -/
theorem find_foldl_setKey :
    ∀ (l : List (String × CacheEntry)) (acc : Cache) {key : String} {v : CacheEntry},
      (l.map Prod.fst).Nodup → Cache.find l key = some v →
      Cache.find (l.foldl setStep acc) key = some v := by
  intro l
  induction l with
  | nil => intro acc key v _ h; exact absurd h (by simp [Cache.find])
  | cons p rest ih =>
    intro acc key v hnd hfind
    obtain ⟨k0, v0⟩ := p
    simp only [List.map_cons, List.nodup_cons] at hnd
    rw [List.foldl_cons]
    by_cases hk : k0 = key
    · subst hk
      have hv : v0 = v := by simpa [Cache.find] using hfind
      subst hv
      rw [find_foldl_setKey_absent rest _ _ hnd.1, setStep_eq]
      exact find_setKey acc k0 v0
    · have hfind2 : Cache.find rest key = some v := by
        simpa [Cache.find, hk] using hfind
      exact ih _ hnd.2 hfind2

/-- Loading what `SaveEntries` wrote replays one `setKey` per entry, in
store order, over the fresh map. -/
theorem loadLinesAux_saveLines :
    ∀ (c : Cache), (∀ p ∈ c, cleanEntry p.2 ∧ p.1 = CacheEntry.key p.2) →
      ∀ acc : Cache,
        loadLinesAux (goSplit '\n' (saveLines c)) acc = c.foldl setStep acc := by
  intro c
  induction c with
  | nil => intro _ acc; rfl
  | cons p rest ih =>
    intro h acc
    have hp := h p (List.mem_cons_self p rest)
    rw [show saveLines (p :: rest) = entryLine p.2 ++ '\n' :: saveLines rest from rfl,
      goSplit_append_cons (entryLine_no_newline hp.1),
      loadLinesAux_cons_entry hp.1, ← hp.2,
      ih (fun q hq => h q (List.mem_cons_of_mem p hq)) (Cache.setKey acc p.1 p.2),
      List.foldl_cons]
    rfl

theorem get_hit {c : Cache} {key : String} {e : CacheEntry} {now : Nat}
    (hfind : Cache.find c key = some e) (hnow : now ≤ e.expiry) :
    (Cache.Get c key now).1 = some e := by
  unfold Cache.Get
  rw [hfind]
  show (if now > e.expiry then ((none : Option CacheEntry), Cache.eraseKey c key)
    else (some e, c)).1 = some e
  rw [if_neg (by omega)]

/-- C5 witness: in the duplicate-`react` manifest, updating only the
`dependencies` occurrence (line 5) yields the caret-preserving rewrite
and leaves line 11 — the `peerDependencies` occurrence with its
`>=16.0.0` constraint — byte-identical. -/
theorem claim_C5_first_occurrence_only_witness :
    npm.UpdateDependencies duplicateManifest [depReactRuntime] false =
      .ok (joinLines ((splitLines duplicateManifest).set 4
        ⟨npmReplaceAll "react".data
          (GetVersionPrefix ⟨"^18.0.0".data⟩ ++ "18.2.0").data
          ((splitLines duplicateManifest).getD 4 "").data⟩)) ∧
    ((splitLines duplicateManifest).set 4
        ⟨npmReplaceAll "react".data
          (GetVersionPrefix ⟨"^18.0.0".data⟩ ++ "18.2.0").data
          ((splitLines duplicateManifest).getD 4 "").data⟩).getD 10 "" =
      (splitLines duplicateManifest).getD 10 "" ∧
    (splitLines duplicateManifest).getD 10 "" = "    \"react\": \">=16.0.0\"" ∧
    npm.runUpdate duplicateManifest [depReactRuntime] false =
      "\x7b\n  \"name\": \"test-package\",\n  \"version\": \"1.0.0\",\n  \"dependencies\": \x7b\n    \"react\": \"^18.2.0\"\n  \x7d,\n  \"devDependencies\": \x7b\n    \"eslint\": \"^8.45.0\"\n  \x7d,\n  \"peerDependencies\": \x7b\n    \"react\": \">=16.0.0\"\n  \x7d\n\x7d" := by
  have h := claim_C5_first_occurrence_only duplicateManifest depReactRuntime
    "\"react\": ".data "^18.0.0".data (by decide) (by decide) (by decide) (by decide)
  exact ⟨h.1, h.2 10 (by decide), by decide, by decide⟩

/-- A concrete entry with clean fields whose persisted record
round-trips. -/
def wEntry : CacheEntry :=
  ⟨"react", "npm", "17.0.0", "^17.0.0", "18.2.0", "17.0.2", 1767225600⟩

/-- An entry whose package name smuggles the field separator: its record
has eight fields, so the loader skips it as malformed. -/
def pipeEntry : CacheEntry :=
  ⟨"a|b", "npm", "1.0.0", "^1.0.0", "2.0.0", "1.5.0", 1767225600⟩

/-- C8: the cache round trip `Set; SaveEntries; LoadEntries; Get` returns
the entry when it is not yet expired, provided the store's entries are
clean (separator-free ASCII fields, package name not starting with
whitespace, expiry a whole second within the modelled RFC3339 range),
key-consistent and duplicate-free; the persisted record of a clean entry
has exactly 7 pipe-separated fields whose last parses back as the RFC3339
expiry; and a line whose trimmed text fails record parsing is skipped by
the loader rather than failing the load. -/
theorem claim_C8_roundtrip :
    (∀ (c : Cache) (e : CacheEntry) (now : Nat),
      (∀ p ∈ Cache.Set c e, cleanEntry p.2 ∧ p.1 = CacheEntry.key p.2) →
      ((Cache.Set c e).map Prod.fst).Nodup →
      now ≤ e.expiry →
      (Cache.Get (Cache.LoadEntries (Cache.SaveEntries (Cache.Set c e)))
          (CacheEntry.key e) now).1 = some e) ∧
    (∀ e : CacheEntry, cleanEntry e →
      (goSplit '|' (entryLine e)).length = 7 ∧
      parseRFC3339 ⟨(goSplit '|' (entryLine e)).getD 6 []⟩ = some e.expiry) ∧
    (∀ (line : List Char) (rest : List (List Char)) (acc : Cache),
      parseCacheLine (goTrimSpace ⟨line⟩).data = none →
      loadLinesAux (line :: rest) acc = loadLinesAux rest acc) := by
  refine ⟨?_, ?_, ?_⟩
  · intro c e now hclean hnodup hnow
    have hload : Cache.LoadEntries (Cache.SaveEntries (Cache.Set c e)) =
        (Cache.Set c e).foldl setStep [] :=
      loadLinesAux_saveLines (Cache.Set c e) hclean []
    have hfind : Cache.find ((Cache.Set c e).foldl setStep []) (CacheEntry.key e) = some e :=
      find_foldl_setKey (Cache.Set c e) [] hnodup (find_setKey c (CacheEntry.key e) e)
    rw [hload]
    exact get_hit hfind hnow
  · intro e he
    constructor
    · rw [goSplit_entryLine he]
      rfl
    · rw [goSplit_entryLine he]
      exact parseRFC3339_formatRFC3339 he.2.2.2.2.2.2.2
  · intro line rest acc hparse
    by_cases htr : goTrimSpace ⟨line⟩ = ""
    · simp only [loadLinesAux]
      rw [if_pos htr]
    · simp only [loadLinesAux]
      rw [if_neg htr, hparse]

/-- C8 witness: a concrete clean entry set into an empty cache survives
the save–load round trip and is returned by `Get` one second before its
expiry. -/
theorem claim_C8_roundtrip_witness :
    1767225599 ≤ wEntry.expiry ∧
    (Cache.Get (Cache.LoadEntries (Cache.SaveEntries (Cache.Set [] wEntry)))
        (CacheEntry.key wEntry) 1767225599).1 = some wEntry :=
  ⟨by decide,
   claim_C8_roundtrip.1 [] wEntry 1767225599 (by decide) (by decide) (by decide)⟩

/-- C8 counterexample: the round trip is NOT exact for every non-expired
entry. A package name containing `|` makes the saved record 8 fields
wide, the loader skips it as malformed, and `Get` misses although the
entry has not expired — `LoadEntries(SaveEntries(Set(entry)))` silently
loses the entry. -/
theorem claim_C8_counterexample :
    0 ≤ pipeEntry.expiry ∧
    (goSplit '|' (entryLine pipeEntry)).length = 8 ∧
    (Cache.Get (Cache.LoadEntries (Cache.SaveEntries (Cache.Set [] pipeEntry)))
        (CacheEntry.key pipeEntry) 0).1 = none := by
  decide

end Bump
